import Mathlib

/-!
# pycpp-proficiency: the C++ numerical utilities

A shallow embedding of `src/cpp_lib/include/stats.hpp` (the Welford accumulator) and of
`src/cpp_lib/include/numerical.hpp` (log-sum-exp, softmax, Kahan summation and the
tolerant comparator), with the properties of the specification proved about them.

Conventions of the embedding.

* `stats.hpp`: a `double` is read as an element of a linearly ordered field `K` (exact
  arithmetic; `K = ℚ` evaluates, `K = ℝ` is the reals).  The counter `n_` is a C++ `int`:
  it is an `Int` here, and the increment `n_ += 1` has a result only below `INT_MAX`
  (signed overflow is undefined behaviour in C++), so `update` returns an `Option`.
  The same methods on doubles, with every operation rounded, are `update_r`,
  `variance_r` and `feed_r`.
* `numerical.hpp`: the functions are specified on infinities and NaN as well, so a
  `double` is a `Dbl K`: an exact value of `K`, `+∞`, `-∞` or NaN, with the IEEE-754 rules
  for the special values.  `std::exp` and `std::log` are passed as functions on `K`.
  In `log_sum_exp`, `softmax_inplace` and `approx_equal` the arithmetic on finite values
  is exact.  `kahan_sum` and the variants `log_sum_exp_r`, `softmax_inplace_r` and
  `approx_equal_r` round every operation on finite values by a parameter `r`:
  `r = Dbl.fin` is exact arithmetic and `r = round64` is IEEE-754 binary64, round to
  nearest with ties to even (with `Real.exp` and `Real.log` this is a correctly rounded
  library).  Signed zeros are not distinguished.
-/

namespace stats

/-- The largest value of a (32-bit) C++ `int`, the type of the counter `n_`. -/
def INT_MAX : Int := 2147483647

/-- The exception `std::runtime_error`, with its message. -/
structure runtime_error where
  what : String
  deriving DecidableEq

/-- The private members of `class WelfordAccumulator`. -/
structure WelfordAccumulator (K : Type) where
  n_ : Int
  mean_ : K
  m2_ : K
  deriving DecidableEq

namespace WelfordAccumulator

variable {K : Type}

/-- The constructor `WelfordAccumulator() : n_(0), mean_(0.0), m2_(0.0)`. -/
def init [Zero K] : WelfordAccumulator K :=
  { n_ := 0, mean_ := 0, m2_ := 0 }

/-- The method `void update(double x)`.  `n_ += 1` is defined only when `n_ < INT_MAX`;
the division `delta / n_` converts the `int` to a `double`. -/
def update [Field K] (s : WelfordAccumulator K) (x : K) : Option (WelfordAccumulator K) :=
  if s.n_ < INT_MAX then
    let n : Int := s.n_ + 1
    let delta : K := x - s.mean_
    let mean : K := s.mean_ + delta / (n : K)
    let delta2 : K := x - mean
    some { n_ := n, mean_ := mean, m2_ := s.m2_ + delta * delta2 }
  else
    none

/-- The method `int count() const`. -/
def count (s : WelfordAccumulator K) : Int := s.n_

/-- The method `double mean() const`. -/
def mean (s : WelfordAccumulator K) : K := s.mean_

/-- The method `double variance() const`: throws below two observations, and divides by
the `int` value `n_ - 1` otherwise. -/
def variance [Field K] (s : WelfordAccumulator K) : Except runtime_error K :=
  if s.n_ < 2 then
    Except.error { what := "Need at least 2 observations for variance" }
  else
    Except.ok (s.m2_ / (((s.n_ - 1 : Int)) : K))

/-- The method `double std() const`, `std::sqrt(variance())`: an exception thrown by
`variance()` passes through.  `sqrt` stands for `std::sqrt`. -/
def std [Field K] (sqrt : K → K) (s : WelfordAccumulator K) : Except runtime_error K :=
  match variance s with
  | Except.error e => Except.error e
  | Except.ok v => Except.ok (sqrt v)

/-- The method `void reset()`. -/
def reset [Zero K] (_s : WelfordAccumulator K) : WelfordAccumulator K :=
  { n_ := 0, mean_ := 0, m2_ := 0 }

/-- A call of a `const` member function `f` on the object `s`: the value it gives, and
the object after the call (a `const` method cannot assign to a member). -/
def constCall {α : Type} (f : WelfordAccumulator K → α) (s : WelfordAccumulator K) :
    α × WelfordAccumulator K :=
  (f s, s)

/-- The loop `for (double x : xs) acc.update(x);` of the tests and of the demo. -/
def feed [Field K] (s : WelfordAccumulator K) (xs : List K) : Option (WelfordAccumulator K) :=
  xs.foldlM update s

end WelfordAccumulator

/-- The two-pass sample variance, as the specification words it: the sum of the squared
deviations from the arithmetic mean, over `n - 1`. -/
def twoPassVariance {K : Type} [Field K] (xs : List K) : K :=
  let m : K := xs.sum / (xs.length : K)
  (xs.map (fun x => (x - m) ^ 2)).sum / ((xs.length : K) - 1)

end stats

namespace numerical

/-- A `double` of `numerical.hpp`: an exact value, `+∞`, `-∞` or NaN. -/
inductive Dbl (K : Type) where
  | fin (v : K)
  | pinf
  | ninf
  | nan
  deriving DecidableEq

namespace Dbl

variable {K : Type}

/-- The test `std::isfinite`. -/
def isfinite : Dbl K → Bool
  | fin _ => true
  | _ => false

/-- The test `std::isnan`. -/
def isnan : Dbl K → Bool
  | nan => true
  | _ => false

/-- The comparison `a < b` of two doubles: false as soon as one side is NaN. -/
def lt [LinearOrder K] : Dbl K → Dbl K → Bool
  | fin a, fin b => decide (a < b)
  | fin _, pinf => true
  | ninf, fin _ => true
  | ninf, pinf => true
  | _, _ => false

/-- The comparison `a > b` of two doubles. -/
def gt [LinearOrder K] (a b : Dbl K) : Bool := lt b a

/-- Unary minus. -/
def neg [Neg K] : Dbl K → Dbl K
  | fin a => fin (-a)
  | pinf => ninf
  | ninf => pinf
  | nan => nan

/-- The sum `a + b`: NaN is absorbing and `∞ + (-∞)` is NaN. -/
def add [Add K] : Dbl K → Dbl K → Dbl K
  | nan, _ => nan
  | _, nan => nan
  | fin a, fin b => fin (a + b)
  | fin _, pinf => pinf
  | fin _, ninf => ninf
  | pinf, fin _ => pinf
  | pinf, pinf => pinf
  | pinf, ninf => nan
  | ninf, fin _ => ninf
  | ninf, pinf => nan
  | ninf, ninf => ninf

/-- The difference `a - b`: NaN is absorbing and `∞ - ∞` is NaN. -/
def sub [Sub K] : Dbl K → Dbl K → Dbl K
  | nan, _ => nan
  | _, nan => nan
  | fin a, fin b => fin (a - b)
  | fin _, pinf => ninf
  | fin _, ninf => pinf
  | pinf, fin _ => pinf
  | pinf, pinf => nan
  | pinf, ninf => pinf
  | ninf, fin _ => ninf
  | ninf, pinf => ninf
  | ninf, ninf => nan

/-- The function `std::exp` on doubles, from the exponential `e` of the exact values:
`exp(+∞) = +∞`, `exp(-∞) = 0`, `exp(NaN) = NaN`. -/
def exp [Zero K] (e : K → K) : Dbl K → Dbl K
  | fin a => fin (e a)
  | pinf => pinf
  | ninf => fin 0
  | nan => nan

/-- The function `std::log` on doubles, from the logarithm `l` of the positive exact
values: `log(0) = -∞`, `log` of a negative number is NaN, `log(+∞) = +∞`. -/
def log [LinearOrderedField K] (l : K → K) : Dbl K → Dbl K
  | fin a => if 0 < a then fin (l a) else if a = 0 then ninf else nan
  | pinf => pinf
  | ninf => nan
  | nan => nan

end Dbl

open Dbl

variable {K : Type}

/-- The value `*std::max_element(first, last)` on a non-empty range, whose first element
is `first`: the scan keeps `largest` and replaces it when `largest < *it`. -/
def max_element [LinearOrder K] (first : Dbl K) (rest : List (Dbl K)) : Dbl K :=
  rest.foldl (fun largest xi => if Dbl.lt largest xi then xi else largest) first

/-- The function `double log_sum_exp(const std::vector<double>& x)`. -/
def log_sum_exp [LinearOrderedField K] (exp log : K → K) : List (Dbl K) → Dbl K
  | [] => Dbl.neg Dbl.pinf
  | x0 :: rest =>
    let max_val := max_element x0 rest
    if !Dbl.isfinite max_val then
      max_val
    else
      let sum := (x0 :: rest).foldl
        (fun sum xi => Dbl.add sum (Dbl.exp exp (Dbl.sub xi max_val))) (Dbl.fin 0)
      Dbl.add max_val (Dbl.log log sum)

/-- The function `double log_sum_exp(const double* x, size_t n)`: the pointer `x` is
read at the indices `0 .. n - 1`. -/
def log_sum_exp_buf [LinearOrderedField K] (exp log : K → K) (x : Nat → Dbl K) (n : Nat) :
    Dbl K :=
  if n = 0 then
    Dbl.neg Dbl.pinf
  else
    let max_val := (List.range' 1 (n - 1)).foldl
      (fun max_val i => if Dbl.gt (x i) max_val then x i else max_val) (x 0)
    if !Dbl.isfinite max_val then
      max_val
    else
      let sum := (List.range n).foldl
        (fun sum i => Dbl.add sum (Dbl.exp exp (Dbl.sub (x i) max_val))) (Dbl.fin 0)
      Dbl.add max_val (Dbl.log log sum)

namespace Dbl

/-- The test `std::isinf`. -/
def isinf : Dbl K → Bool
  | pinf => true
  | ninf => true
  | _ => false

/-- The comparison `a <= b` of two doubles: false as soon as one side is NaN. -/
def le [LinearOrder K] : Dbl K → Dbl K → Bool
  | nan, _ => false
  | _, nan => false
  | fin a, fin b => decide (a ≤ b)
  | ninf, _ => true
  | _, pinf => true
  | _, _ => false

/-- The function `std::abs` on doubles. -/
def abs [LinearOrderedField K] : Dbl K → Dbl K
  | fin a => fin |a|
  | pinf => pinf
  | ninf => pinf
  | nan => nan

/-- The function `std::max(a, b)`, which is `(a < b) ? b : a`. -/
def stdmax [LinearOrder K] (a b : Dbl K) : Dbl K :=
  if lt a b then b else a

/-- The product `a * b`: NaN is absorbing, `0 * ∞` is NaN, and the sign of an infinite
product is the product of the signs. -/
def mul [LinearOrderedField K] : Dbl K → Dbl K → Dbl K
  | nan, _ => nan
  | _, nan => nan
  | fin a, fin b => fin (a * b)
  | fin a, pinf => if 0 < a then pinf else if a < 0 then ninf else nan
  | fin a, ninf => if 0 < a then ninf else if a < 0 then pinf else nan
  | pinf, fin b => if 0 < b then pinf else if b < 0 then ninf else nan
  | ninf, fin b => if 0 < b then ninf else if b < 0 then pinf else nan
  | pinf, pinf => pinf
  | pinf, ninf => ninf
  | ninf, pinf => ninf
  | ninf, ninf => pinf

/-- The quotient `a / b`: NaN is absorbing, `∞ / ∞` and `0 / 0` are NaN, a finite value
over an infinity is 0, and a zero divisor (read as `+0`) gives an infinity. -/
def div [LinearOrderedField K] : Dbl K → Dbl K → Dbl K
  | nan, _ => nan
  | _, nan => nan
  | fin a, fin b =>
    if b = 0 then (if 0 < a then pinf else if a < 0 then ninf else nan) else fin (a / b)
  | fin _, pinf => fin 0
  | fin _, ninf => fin 0
  | pinf, fin b => if 0 ≤ b then pinf else ninf
  | ninf, fin b => if 0 ≤ b then ninf else pinf
  | pinf, pinf => nan
  | pinf, ninf => nan
  | ninf, pinf => nan
  | ninf, ninf => nan

/-- The sum `a + b` where the exact sum of two finite operands is rounded by `r`. -/
def radd [Add K] (r : K → Dbl K) : Dbl K → Dbl K → Dbl K
  | fin a, fin b => r (a + b)
  | a, b => add a b

/-- The difference `a - b` where the exact difference of two finite operands is rounded
by `r`. -/
def rsub [Sub K] (r : K → Dbl K) : Dbl K → Dbl K → Dbl K
  | fin a, fin b => r (a - b)
  | a, b => sub a b

/-- The product `a * b` where the exact product of two finite operands is rounded by
`r`. -/
def rmul [LinearOrderedField K] (r : K → Dbl K) : Dbl K → Dbl K → Dbl K
  | fin a, fin b => r (a * b)
  | a, b => mul a b

/-- The quotient `a / b` where the exact quotient of two finite operands, the divisor
not zero, is rounded by `r`. -/
def rdiv [LinearOrderedField K] (r : K → Dbl K) : Dbl K → Dbl K → Dbl K
  | fin a, fin b => if b = 0 then div (fin a) (fin b) else r (a / b)
  | a, b => div a b

/-- The function `std::exp` where the exponential of a finite operand is rounded by
`r`. -/
def rexp [Zero K] (r : K → Dbl K) (e : K → K) : Dbl K → Dbl K
  | fin a => r (e a)
  | a => exp e a

/-- The function `std::log` where the logarithm of a positive finite operand is rounded
by `r`. -/
def rlog [LinearOrderedField K] (r : K → Dbl K) (l : K → K) : Dbl K → Dbl K
  | fin a => if 0 < a then r (l a) else log l (fin a)
  | a => log l a

end Dbl

/-- One iteration of the first loop of `softmax_inplace`, on the pair of the elements
already overwritten and of `sum`: `xi = std::exp(xi - max_val); sum += xi;`. -/
def softmax_step [LinearOrderedField K] (exp : K → K) (max_val : Dbl K)
    (p : List (Dbl K) × Dbl K) (xi : Dbl K) : List (Dbl K) × Dbl K :=
  let xi1 := Dbl.exp exp (Dbl.sub xi max_val)
  (p.1 ++ [xi1], Dbl.add p.2 xi1)

/-- The function `void softmax_inplace(std::vector<double>& x)`: the vector after the
call.  The first loop overwrites each element and accumulates `sum`, the second divides
each element by `sum`. -/
def softmax_inplace [LinearOrderedField K] (exp : K → K) : List (Dbl K) → List (Dbl K)
  | [] => []
  | x0 :: rest =>
    let max_val := max_element x0 rest
    let p := (x0 :: rest).foldl (softmax_step exp max_val) ([], Dbl.fin 0)
    p.1.map (fun xi => Dbl.div xi p.2)

/-- One iteration of the loop of `kahan_sum` on the pair `(sum, c)`:
`y = xi - c; t = sum + y; c = (t - sum) - y; sum = t`.  The sums and differences of
finite values are rounded by `r` (`r = Dbl.fin` is exact arithmetic). -/
def kahan_step [Field K] (r : K → Dbl K) (p : Dbl K × Dbl K) (xi : Dbl K) : Dbl K × Dbl K :=
  let y := Dbl.rsub r xi p.2
  let t := Dbl.radd r p.1 y
  let c := Dbl.rsub r (Dbl.rsub r t p.1) y
  (t, c)

/-- The loop of `kahan_sum`: the pair `(sum, c)` after the last element, from
`sum = 0.0` and `c = 0.0`. -/
def kahan_loop [Field K] (r : K → Dbl K) (x : List (Dbl K)) : Dbl K × Dbl K :=
  x.foldl (kahan_step r) (Dbl.fin 0, Dbl.fin 0)

/-- The function `double kahan_sum(const std::vector<double>& x)`. -/
def kahan_sum [Field K] (r : K → Dbl K) (x : List (Dbl K)) : Dbl K :=
  (kahan_loop r x).1

/-- The naive summation of `demo.cpp`: `double naive_sum = 0; for (double x : v)
naive_sum += x;`. -/
def naive_sum [Field K] (r : K → Dbl K) (x : List (Dbl K)) : Dbl K :=
  x.foldl (fun naive_sum xi => Dbl.radd r naive_sum xi) (Dbl.fin 0)

/-- The function `bool approx_equal(double a, double b, double rel_tol, double abs_tol)`. -/
def approx_equal [LinearOrderedField K] (a b rel_tol abs_tol : Dbl K) : Bool :=
  if Dbl.isnan a || Dbl.isnan b then
    false
  else if Dbl.isinf a && Dbl.isinf b then
    (Dbl.gt a (Dbl.fin 0)) == (Dbl.gt b (Dbl.fin 0))
  else
    let diff := Dbl.abs (Dbl.sub a b)
    Dbl.le diff (Dbl.stdmax (Dbl.mul rel_tol (Dbl.stdmax (Dbl.abs a) (Dbl.abs b))) abs_tol)

/-- The call `approx_equal(a, b)` with the default arguments `rel_tol = 1e-9` and
`abs_tol = 0.0`, in exact arithmetic: `1e-9` is read as the exact value `10 ^ (-9)`,
not as the double nearest to it. -/
def approx_equal_default [LinearOrderedField K] (a b : Dbl K) : Bool :=
  approx_equal a b (Dbl.fin (1 / 1000000000)) (Dbl.fin 0)

/-- Rounding of an exact value to the nearest integer, ties to the even one. -/
def roundHalfEven [LinearOrderedField K] [FloorRing K] (q : K) : ℤ :=
  if q - ⌊q⌋ < 1 / 2 then ⌊q⌋
  else if 1 / 2 < q - ⌊q⌋ then ⌊q⌋ + 1
  else if ⌊q⌋ % 2 = 0 then ⌊q⌋
  else ⌊q⌋ + 1

/-- The rounding of IEEE-754 binary64 (round to nearest, ties to even) of an exact
value: a significand of 53 bits, the least exponent `-1022` (below it the spacing stays
`2 ^ (-1074)`), and `±∞` past the largest double `(2 ^ 53 - 1) * 2 ^ 971`. -/
def round64 [LinearOrderedField K] [FloorRing K] (q : K) : Dbl K :=
  if q = 0 then Dbl.fin 0
  else
    let e : ℤ := max (Int.log 2 |q|) (-1022) - 52
    let v : K := (roundHalfEven (q / (2 : K) ^ e) : K) * (2 : K) ^ e
    if (2 ^ 53 - 1) * (2 : K) ^ (971 : ℤ) < |v| then
      (if 0 < q then Dbl.pinf else Dbl.ninf)
    else Dbl.fin v

/-- The term an element contributes to the sum of the exponentials: `exp v` for a finite
`v`, and 0 for `-∞`. -/
def exp_term (exp : K → K) [Zero K] : Dbl K → K
  | Dbl.fin v => exp v
  | _ => 0

/-- One iteration of the summation loop of `log_sum_exp`,
`sum += std::exp(xi - max_val)`, with every operation rounded by `r`. -/
def log_sum_exp_step_r [LinearOrderedField K] (r : K → Dbl K) (exp : K → K)
    (max_val sum xi : Dbl K) : Dbl K :=
  Dbl.radd r sum (Dbl.rexp r exp (Dbl.rsub r xi max_val))

/-- The function `double log_sum_exp(const std::vector<double>& x)` with every
arithmetic operation and every call of `std::exp` and `std::log` rounded by `r`
(`r = Dbl.fin` gives `log_sum_exp`, `r = round64` is double arithmetic with a correctly
rounded library). -/
def log_sum_exp_r [LinearOrderedField K] (r : K → Dbl K) (exp log : K → K) :
    List (Dbl K) → Dbl K
  | [] => Dbl.neg Dbl.pinf
  | x0 :: rest =>
    let max_val := max_element x0 rest
    if !Dbl.isfinite max_val then
      max_val
    else
      let sum := (x0 :: rest).foldl (log_sum_exp_step_r r exp max_val) (Dbl.fin 0)
      Dbl.radd r max_val (Dbl.rlog r log sum)

/-- One iteration of the first loop of `softmax_inplace` with every operation rounded
by `r`. -/
def softmax_step_r [LinearOrderedField K] (r : K → Dbl K) (exp : K → K) (max_val : Dbl K)
    (p : List (Dbl K) × Dbl K) (xi : Dbl K) : List (Dbl K) × Dbl K :=
  let xi1 := Dbl.rexp r exp (Dbl.rsub r xi max_val)
  (p.1 ++ [xi1], Dbl.radd r p.2 xi1)

/-- The function `void softmax_inplace(std::vector<double>& x)` with every operation
rounded by `r` (`r = Dbl.fin` gives `softmax_inplace`). -/
def softmax_inplace_r [LinearOrderedField K] (r : K → Dbl K) (exp : K → K) :
    List (Dbl K) → List (Dbl K)
  | [] => []
  | x0 :: rest =>
    let max_val := max_element x0 rest
    let p := (x0 :: rest).foldl (softmax_step_r r exp max_val) ([], Dbl.fin 0)
    p.1.map (fun xi => Dbl.rdiv r xi p.2)

/-- The function `bool approx_equal(double a, double b, double rel_tol, double abs_tol)`
with the difference and the product rounded by `r` (`r = Dbl.fin` gives
`approx_equal`). -/
def approx_equal_r [LinearOrderedField K] (r : K → Dbl K) (a b rel_tol abs_tol : Dbl K) :
    Bool :=
  if Dbl.isnan a || Dbl.isnan b then
    false
  else if Dbl.isinf a && Dbl.isinf b then
    (Dbl.gt a (Dbl.fin 0)) == (Dbl.gt b (Dbl.fin 0))
  else
    let diff := Dbl.abs (Dbl.rsub r a b)
    Dbl.le diff
      (Dbl.stdmax (Dbl.rmul r rel_tol (Dbl.stdmax (Dbl.abs a) (Dbl.abs b))) abs_tol)

/-- The input of the test `KahanSum.ReducesError` and of the demo: `1e16` followed by
10000 times `1.0`. -/
def kahan_test : List (Dbl ℚ) :=
  Dbl.fin 10000000000000000 :: List.replicate 10000 (Dbl.fin 1)

end numerical

namespace stats

namespace WelfordAccumulator

open numerical

variable {K : Type}

/-- The method `void update(double x)` on doubles, with every arithmetic operation,
and the conversion of `n_` to a `double`, rounded by `r` (`r = Dbl.fin` is the exact
arithmetic of `update`, `r = round64` is double arithmetic). -/
def update_r [LinearOrderedField K] (r : K → Dbl K) (s : WelfordAccumulator (Dbl K))
    (x : Dbl K) : Option (WelfordAccumulator (Dbl K)) :=
  if s.n_ < INT_MAX then
    let n : Int := s.n_ + 1
    let delta := Dbl.rsub r x s.mean_
    let mean := Dbl.radd r s.mean_ (Dbl.rdiv r delta (r (n : K)))
    let delta2 := Dbl.rsub r x mean
    some { n_ := n, mean_ := mean, m2_ := Dbl.radd r s.m2_ (Dbl.rmul r delta delta2) }
  else
    none

end WelfordAccumulator

end stats

/-! ## The accumulator of `stats.hpp` -/

namespace stats

namespace WelfordAccumulator

variable {K : Type}

theorem update_of_lt [Field K] (s : WelfordAccumulator K) (x : K) (h : s.n_ < INT_MAX) :
    update s x = some
      { n_ := s.n_ + 1
        mean_ := s.mean_ + (x - s.mean_) / ((s.n_ + 1 : Int) : K)
        m2_ := s.m2_ + (x - s.mean_) *
          (x - (s.mean_ + (x - s.mean_) / ((s.n_ + 1 : Int) : K))) } := by
  simp [update, h]

theorem update_of_not_lt [Field K] (s : WelfordAccumulator K) (x : K)
    (h : ¬ s.n_ < INT_MAX) : update s x = none := by
  simp [update, h]

theorem feed_nil [Field K] (s : WelfordAccumulator K) : feed s [] = some s := rfl

theorem feed_cons [Field K] (s : WelfordAccumulator K) (x : K) (xs : List K) :
    feed s (x :: xs) = (update s x).bind (fun s' => feed s' xs) := by
  simp [feed, List.foldlM_cons]

/-- One defined update keeps the three relations between the state and the list `pre`
of the observations seen so far: the count is the length, `n_ * mean_` is the sum, and
`m2_` is the sum of the squares minus `n_ * mean_ ^ 2`. -/
theorem update_tracks [Field K] [CharZero K] (pre : List K) (s : WelfordAccumulator K)
    (x : K) (hn : s.n_ = pre.length) (hmean : (s.n_ : K) * s.mean_ = pre.sum)
    (hm2 : s.m2_ = (pre.map (fun y => y * y)).sum - (s.n_ : K) * s.mean_ ^ 2)
    (hlt : s.n_ < INT_MAX) :
    ∃ s', update s x = some s' ∧ s'.n_ = (pre ++ [x]).length ∧
      (s'.n_ : K) * s'.mean_ = (pre ++ [x]).sum ∧
      s'.m2_ = ((pre ++ [x]).map (fun y => y * y)).sum - (s'.n_ : K) * s'.mean_ ^ 2 := by
  refine ⟨_, update_of_lt s x hlt, ?_, ?_, ?_⟩
  · simp [hn]
  · have hne : ((pre.length : K) + 1) ≠ 0 := by exact_mod_cast Nat.succ_ne_zero pre.length
    simp only [hn] at hmean ⊢
    push_cast at hmean ⊢
    rw [List.sum_append, ← hmean]
    field_simp
    ring
  · have hne : ((pre.length : K) + 1) ≠ 0 := by exact_mod_cast Nat.succ_ne_zero pre.length
    simp only [hn] at hm2 ⊢
    push_cast at hm2 ⊢
    rw [List.map_append, List.sum_append, hm2]
    simp only [List.map_cons, List.map_nil, List.sum_cons, List.sum_nil]
    field_simp
    ring

/-- Feeding `xs` to a state that tracks `pre` is defined while the counter stays within
the `int` range, and gives a state that tracks `pre ++ xs`. -/
theorem feed_tracks [Field K] [CharZero K] (xs : List K) :
    ∀ (pre : List K) (s : WelfordAccumulator K), s.n_ = pre.length →
      (s.n_ : K) * s.mean_ = pre.sum →
      s.m2_ = (pre.map (fun y => y * y)).sum - (s.n_ : K) * s.mean_ ^ 2 →
      ((pre ++ xs).length : Int) ≤ INT_MAX →
      ∃ s', feed s xs = some s' ∧ s'.n_ = (pre ++ xs).length ∧
        (s'.n_ : K) * s'.mean_ = (pre ++ xs).sum ∧
        s'.m2_ = ((pre ++ xs).map (fun y => y * y)).sum - (s'.n_ : K) * s'.mean_ ^ 2 := by
  induction xs with
  | nil =>
    intro pre s hn hmean hm2 _
    exact ⟨s, feed_nil s, by simpa using hn, by simpa using hmean, by simpa using hm2⟩
  | cons x t ih =>
    intro pre s hn hmean hm2 hlen
    have hlt : s.n_ < INT_MAX := by
      simp only [List.length_append, List.length_cons] at hlen
      push_cast at hlen
      omega
    obtain ⟨s1, h1, hn1, hmean1, hm21⟩ := update_tracks pre s x hn hmean hm2 hlt
    have hlen1 : (((pre ++ [x]) ++ t).length : Int) ≤ INT_MAX := by simpa using hlen
    obtain ⟨s2, h2, hn2, hmean2, hm22⟩ := ih (pre ++ [x]) s1 hn1 hmean1 hm21 hlen1
    refine ⟨s2, ?_, ?_, ?_, ?_⟩
    · rw [feed_cons, h1]; exact h2
    · simpa using hn2
    · simpa using hmean2
    · simpa using hm22

/-- From a new accumulator: feeding `xs` (at most `INT_MAX` observations) is defined,
the count is the length, `n_ * mean_` is the sum and `m2_` is the sum of the squares
minus `n_ * mean_ ^ 2`. -/
theorem feed_init_tracks [Field K] [CharZero K] (xs : List K)
    (hlen : (xs.length : Int) ≤ INT_MAX) :
    ∃ s, feed init xs = some s ∧ s.n_ = xs.length ∧ (s.n_ : K) * s.mean_ = xs.sum ∧
      s.m2_ = (xs.map (fun y => y * y)).sum - (s.n_ : K) * s.mean_ ^ 2 := by
  have h := feed_tracks xs [] (init : WelfordAccumulator K) (by simp [init])
    (by simp [init]) (by simp [init]) (by simpa using hlen)
  simpa using h

/-- Past `INT_MAX` observations the counter overflows: the feed has no defined result. -/
theorem feed_overflow [Field K] (xs : List K) :
    ∀ s : WelfordAccumulator K, s.n_ ≤ INT_MAX → INT_MAX < s.n_ + (xs.length : Int) →
      feed s xs = none := by
  induction xs with
  | nil =>
    intro s h1 h2
    simp at h2
    omega
  | cons x t ih =>
    intro s h1 h2
    by_cases hlt : s.n_ < INT_MAX
    · rw [feed_cons, update_of_lt s x hlt]
      apply ih
      · show s.n_ + 1 ≤ INT_MAX
        omega
      · show INT_MAX < s.n_ + 1 + (t.length : Int)
        simp only [List.length_cons] at h2
        push_cast at h2
        omega
    · rw [feed_cons, update_of_not_lt s x hlt]
      rfl

/-- A defined run of updates raises the counter by the number of observations. -/
theorem feed_count [Field K] (s s' : WelfordAccumulator K) (ys : List K)
    (h : feed s ys = some s') : count s' = count s + (ys.length : Int) := by
  induction ys generalizing s with
  | nil =>
    rw [feed_nil] at h
    cases h
    simp
  | cons y t ih =>
    by_cases hlt : s.n_ < INT_MAX
    · rw [feed_cons, update_of_lt s y hlt] at h
      have h1 := ih _ h
      simp only [count, List.length_cons] at h1 ⊢
      push_cast
      omega
    · rw [feed_cons, update_of_not_lt s y hlt] at h
      exact Option.noConfusion h

end WelfordAccumulator

/-- The sum of the squared deviations from any centre `m`, expanded. -/
theorem sum_sq_dev {K : Type} [Field K] (m : K) (xs : List K) :
    (xs.map (fun x => (x - m) ^ 2)).sum
      = (xs.map (fun y => y * y)).sum - 2 * m * xs.sum + (xs.length : K) * m ^ 2 := by
  induction xs with
  | nil => simp
  | cons x t ih =>
    simp only [List.map_cons, List.sum_cons, List.length_cons, ih]
    push_cast
    ring

end stats

namespace stats

namespace WelfordAccumulator

variable {K : Type}

/-- C1: on every accumulator state (the reachable ones among them) `variance()` throws
exactly when `count() < 2`, returns `M2 / (count() - 1)` exactly when `count() >= 2`,
and the call leaves the state `(count, mean, M2)` as it was. -/
theorem variance_throws_iff_count_lt_two [Field K] (s : WelfordAccumulator K) :
    ((∃ e, (constCall variance s).1 = Except.error e) ↔ count s < 2) ∧
    ((constCall variance s).1 = Except.ok (s.m2_ / (((count s - 1 : Int)) : K))
      ↔ 2 ≤ count s) ∧
    (constCall variance s).2 = s := by
  refine ⟨?_, ?_, rfl⟩
  · by_cases h : s.n_ < 2 <;> simp [constCall, variance, count, h]
  · by_cases h : s.n_ < 2
    · simp [constCall, variance, count, h]
    · simp [constCall, variance, count, h]
      omega

/-- C2: on every accumulator state `std()` throws exactly when `count() < 2`, with the
very error `variance()` throws, and when `variance()` returns `v` it returns the square
root of `v`. -/
theorem std_eq_sqrt_variance (s : WelfordAccumulator ℝ) :
    ((∃ e, std Real.sqrt s = Except.error e) ↔ count s < 2) ∧
    (∀ e, std Real.sqrt s = Except.error e ↔ variance s = Except.error e) ∧
    (∀ v, variance s = Except.ok v → std Real.sqrt s = Except.ok (Real.sqrt v)) := by
  refine ⟨?_, ?_, ?_⟩
  · by_cases h : s.n_ < 2 <;> simp [std, variance, count, h]
  · intro e
    by_cases h : s.n_ < 2 <;> simp [std, variance, h]
  · intro v hv
    simp [std, hv]

/-- A state with two observations, where `std()` is the root of `variance()`. -/
theorem std_eq_sqrt_variance_witness :
    variance ({ n_ := 2, mean_ := 3 / 2, m2_ := 1 / 2 } : WelfordAccumulator ℝ)
        = Except.ok (1 / 2) ∧
      std Real.sqrt ({ n_ := 2, mean_ := 3 / 2, m2_ := 1 / 2 } : WelfordAccumulator ℝ)
        = Except.ok (Real.sqrt (1 / 2)) :=
  have h : variance ({ n_ := 2, mean_ := 3 / 2, m2_ := 1 / 2 } : WelfordAccumulator ℝ)
      = Except.ok (1 / 2) := by
    simp [variance]
  ⟨h, (std_eq_sqrt_variance _).2.2 (1 / 2) h⟩

/-- C3, as stated, fails past the range of the `int` counter: after 2147483648 updates
of a new accumulator there is no state whose count is 2147483648. -/
theorem count_eq_length_counterexample :
    feed (init : WelfordAccumulator ℚ) (List.replicate 2147483648 0) = none ∧
    ¬ ∃ s, feed (init : WelfordAccumulator ℚ) (List.replicate 2147483648 0) = some s ∧
      count s = 2147483648 := by
  have h : feed (init : WelfordAccumulator ℚ) (List.replicate 2147483648 0) = none := by
    apply feed_overflow
    · simp [init, INT_MAX]
    · rw [List.length_replicate]
      simp [init, INT_MAX]
  refine ⟨h, ?_⟩
  rintro ⟨s, hs, -⟩
  rw [h] at hs
  exact Option.noConfusion hs

/-- C3 (amended): in exact arithmetic, for every non-empty sequence of at most `INT_MAX`
observations fed to a new accumulator, `count()` is the length and `mean()` is the sum
over the length; after one observation `mean()` is that observation; every defined
update raises `count()` by exactly one, so no run of updates lowers it. -/
theorem count_and_mean_after_feed [Field K] [CharZero K] (xs : List K) (hne : xs ≠ [])
    (hlen : (xs.length : Int) ≤ INT_MAX) :
    (∃ s, feed init xs = some s ∧ count s = xs.length ∧
      mean s = xs.sum / (xs.length : K)) ∧
    (∀ x : K, ∃ s, feed init [x] = some s ∧ count s = 1 ∧ mean s = x) ∧
    (∀ (s s' : WelfordAccumulator K) (x : K), update s x = some s' →
      count s' = count s + 1) ∧
    (∀ (s s' : WelfordAccumulator K) (ys : List K), feed s ys = some s' →
      count s ≤ count s') := by
  refine ⟨?_, ?_, ?_, ?_⟩
  · obtain ⟨s, hs, hn, hmean, -⟩ := feed_init_tracks xs hlen
    refine ⟨s, hs, hn, ?_⟩
    have hpos : (xs.length : K) ≠ 0 := by
      have : xs.length ≠ 0 := by simpa using hne
      exact_mod_cast this
    rw [hn] at hmean
    simp only [mean]
    rw [← hmean]
    push_cast
    field_simp
  · intro x
    obtain ⟨s, hs, hn, hmean, -⟩ := feed_init_tracks [x] (by simp [INT_MAX])
    refine ⟨s, hs, by simpa using hn, ?_⟩
    rw [hn] at hmean
    simpa [mean] using hmean
  · intro s s' x h
    by_cases hlt : s.n_ < INT_MAX
    · rw [update_of_lt s x hlt] at h
      cases h
      rfl
    · rw [update_of_not_lt s x hlt] at h
      exact Option.noConfusion h
  · intro s s' ys h
    rw [feed_count s s' ys h]
    have : (0 : Int) ≤ (ys.length : Int) := Int.natCast_nonneg _
    omega

/-- The observations `1, 2, 3, 4`: the count is 4 and the mean is `10 / 4`. -/
theorem count_and_mean_after_feed_witness :
    ∃ s, feed (init : WelfordAccumulator ℚ) [1, 2, 3, 4] = some s ∧ count s = 4 ∧
      mean s = 10 / 4 := by
  have h := (count_and_mean_after_feed ([1, 2, 3, 4] : List ℚ) (by simp)
    (by simp [INT_MAX])).1
  norm_num at h
  norm_num
  exact h

/-- C4, as stated, fails past the range of the `int` counter: 2147483648 observations
give no state on which `variance()` returns the two-pass variance. -/
theorem variance_two_pass_counterexample :
    ¬ ∃ s, feed (init : WelfordAccumulator ℚ) (List.replicate 2147483648 1) = some s ∧
      variance s = Except.ok (twoPassVariance (List.replicate 2147483648 (1 : ℚ))) := by
  have h : feed (init : WelfordAccumulator ℚ) (List.replicate 2147483648 1) = none := by
    apply feed_overflow
    · simp [init, INT_MAX]
    · rw [List.length_replicate]
      simp [init, INT_MAX]
  rintro ⟨s, hs, -⟩
  rw [h] at hs
  exact Option.noConfusion hs

/-- C4 (amended): in exact arithmetic, for every sequence of `n` observations with
`2 <= n <= INT_MAX` fed to a new accumulator, `variance()` returns the two-pass sample
variance of the sequence. -/
theorem variance_eq_two_pass [Field K] [CharZero K] (xs : List K) (h2 : 2 ≤ xs.length)
    (hlen : (xs.length : Int) ≤ INT_MAX) :
    ∃ s, feed init xs = some s ∧ variance s = Except.ok (twoPassVariance xs) := by
  obtain ⟨s, hs, hn, hmean, hm2⟩ := feed_init_tracks xs hlen
  refine ⟨s, hs, ?_⟩
  have hnot : ¬ s.n_ < 2 := by
    rw [hn]
    omega
  have hpos : (xs.length : K) ≠ 0 := by
    have : xs.length ≠ 0 := by omega
    exact_mod_cast this
  have hm : xs.sum / (xs.length : K) = s.mean_ := by
    rw [← hmean, hn]
    push_cast
    field_simp
  have hsum : xs.sum = (xs.length : K) * s.mean_ := by
    rw [← hmean, hn]
    push_cast
    rfl
  simp only [variance, hnot, if_false, twoPassVariance]
  congr 1
  rw [hm, sum_sq_dev, hm2, hsum, hn]
  push_cast
  ring

/-- The observations `1, ..., 10` give `82.5 / 9`. -/
theorem variance_eq_two_pass_witness :
    ∃ s, feed (init : WelfordAccumulator ℚ) [1, 2, 3, 4, 5, 6, 7, 8, 9, 10] = some s ∧
      variance s = Except.ok (82.5 / 9) := by
  have h := variance_eq_two_pass ([1, 2, 3, 4, 5, 6, 7, 8, 9, 10] : List ℚ) (by simp)
    (by simp [INT_MAX])
  have hv : twoPassVariance ([1, 2, 3, 4, 5, 6, 7, 8, 9, 10] : List ℚ) = 82.5 / 9 := by
    norm_num [twoPassVariance]
  rw [hv] at h
  exact h

/-- C6: `reset()` turns every state, whatever updates led to it, into the state of a
new accumulator: `count()` and `mean()` are 0, `M2` is 0, and every later run of
updates gives what it gives on a new accumulator. -/
theorem reset_eq_init [Field K] (s : WelfordAccumulator K) :
    reset s = init ∧ count (reset s) = 0 ∧ mean (reset s) = 0 ∧ (reset s).m2_ = 0 ∧
      ∀ ys : List K, feed (reset s) ys = feed init ys :=
  ⟨rfl, rfl, rfl, rfl, fun _ => rfl⟩

end WelfordAccumulator

end stats

/-! ## Log-sum-exp of `numerical.hpp` -/

namespace numerical

open Dbl

variable {K : Type}

/-- On exact values the scan of `std::max_element` computes the running maximum. -/
theorem max_element_fin [LinearOrder K] (rest : List K) :
    ∀ a : K, max_element (Dbl.fin a) (rest.map Dbl.fin) = Dbl.fin (rest.foldl max a) := by
  induction rest with
  | nil => intro a; rfl
  | cons b t ih =>
    intro a
    simp only [List.map_cons, List.foldl_cons, max_element] at ih ⊢
    by_cases h : a < b
    · simp only [Dbl.lt, h, decide_True, if_true, max_eq_right h.le]
      exact ih b
    · simp only [Dbl.lt, h, decide_False, Bool.false_eq_true, if_false,
        max_eq_left (not_lt.mp h)]
      exact ih a

theorem sum_step_fin [LinearOrderedField K] (e : K → K) (acc b m : K) :
    Dbl.add (Dbl.fin acc) (Dbl.exp e (Dbl.sub (Dbl.fin b) (Dbl.fin m)))
      = Dbl.fin (acc + e (b - m)) := rfl

/-- On exact values the summation loop of `log_sum_exp` computes the plain sum of the
shifted exponentials. -/
theorem sum_loop_fin [LinearOrderedField K] (e : K → K) (m : K) (l : List K) :
    ∀ acc : K,
      (l.map Dbl.fin).foldl
          (fun sum xi => Dbl.add sum (Dbl.exp e (Dbl.sub xi (Dbl.fin m)))) (Dbl.fin acc)
        = Dbl.fin (acc + (l.map (fun v => e (v - m))).sum) := by
  induction l with
  | nil => intro acc; simp
  | cons b t ih =>
    intro acc
    simp only [List.map_cons, List.foldl_cons, List.sum_cons]
    rw [sum_step_fin, ih]
    congr 1
    ring

theorem sum_exp_nonneg (l : List ℝ) : 0 ≤ (l.map Real.exp).sum := by
  induction l with
  | nil => simp
  | cons b t ih =>
    simp only [List.map_cons, List.sum_cons]
    exact add_nonneg (Real.exp_pos b).le ih

theorem sum_exp_pos (l : List ℝ) (h : l ≠ []) : 0 < (l.map Real.exp).sum := by
  cases l with
  | nil => exact absurd rfl h
  | cons b t =>
    simp only [List.map_cons, List.sum_cons]
    exact add_pos_of_pos_of_nonneg (Real.exp_pos b) (sum_exp_nonneg t)

theorem sum_exp_shift (m : ℝ) (l : List ℝ) :
    (l.map (fun v => Real.exp (v - m))).sum = (l.map Real.exp).sum * Real.exp (-m) := by
  induction l with
  | nil => simp
  | cons b t ih =>
    simp only [List.map_cons, List.sum_cons]
    rw [ih, sub_eq_add_neg, Real.exp_add]
    ring

/-- On a non-empty sequence of finite reals the code of `log_sum_exp` returns the
logarithm of the sum of the exponentials. -/
theorem log_sum_exp_fin (xs : List ℝ) (hne : xs ≠ []) :
    log_sum_exp Real.exp Real.log (xs.map Dbl.fin)
      = Dbl.fin (Real.log (xs.map Real.exp).sum) := by
  cases xs with
  | nil => exact absurd rfl hne
  | cons a rest =>
    have hpos : 0 < ((a :: rest).map Real.exp).sum := sum_exp_pos _ (by simp)
    have hS : 0 < ((a :: rest).map Real.exp).sum * Real.exp (-(rest.foldl max a)) :=
      mul_pos hpos (Real.exp_pos _)
    have hloop : (Dbl.fin a :: rest.map Dbl.fin).foldl
        (fun sum xi =>
          Dbl.add sum (Dbl.exp Real.exp (Dbl.sub xi (Dbl.fin (rest.foldl max a)))))
        (Dbl.fin 0)
        = Dbl.fin (0 + ((a :: rest).map (fun v => Real.exp (v - rest.foldl max a))).sum) :=
      sum_loop_fin Real.exp (rest.foldl max a) (a :: rest) 0
    show log_sum_exp Real.exp Real.log (Dbl.fin a :: rest.map Dbl.fin) = _
    simp only [log_sum_exp, max_element_fin, Dbl.isfinite, Bool.not_true,
      Bool.false_eq_true, if_false]
    rw [hloop, zero_add, sum_exp_shift]
    simp only [Dbl.log, hS, if_true, Dbl.add]
    rw [Real.log_mul (ne_of_gt hpos) (ne_of_gt (Real.exp_pos _)), Real.log_exp]
    congr 1
    ring

/-- C7: for every non-empty sequence of finite reals, `log_sum_exp` returns, in exact
real arithmetic, the logarithm of the sum of the exponentials of the elements: the
shift by the maximum does not change the value. -/
theorem log_sum_exp_eq_log_sum_exp (xs : List ℝ) (hne : xs ≠ []) :
    log_sum_exp Real.exp Real.log (xs.map Dbl.fin)
      = Dbl.fin (Real.log (xs.map Real.exp).sum) :=
  log_sum_exp_fin xs hne

/-- The sequence `1, 2, 3` gives `log (e ^ 1 + e ^ 2 + e ^ 3)`. -/
theorem log_sum_exp_eq_log_sum_exp_witness :
    log_sum_exp Real.exp Real.log [Dbl.fin 1, Dbl.fin 2, Dbl.fin 3]
      = Dbl.fin (Real.log (Real.exp 1 + Real.exp 2 + Real.exp 3)) := by
  have h := log_sum_exp_eq_log_sum_exp [1, 2, 3] (by simp)
  simp only [List.map_cons, List.map_nil, List.sum_cons, List.sum_nil, add_zero] at h
  rw [h, add_assoc]

/-- C8: for every buffer `x` and count `n` the buffer form of `log_sum_exp` returns what
the sequence form returns on the elements `x[0], ..., x[n - 1]`, whatever they are
(infinities and NaN included), and on zero elements both return `-∞`. -/
theorem log_sum_exp_buf_eq [LinearOrderedField K] (exp log : K → K) (x : Nat → Dbl K)
    (n : Nat) :
    log_sum_exp_buf exp log x n = log_sum_exp exp log ((List.range n).map x) ∧
      log_sum_exp_buf exp log x 0 = Dbl.ninf ∧
      log_sum_exp exp log ([] : List (Dbl K)) = Dbl.ninf := by
  refine ⟨?_, rfl, rfl⟩
  cases n with
  | zero => rfl
  | succ m =>
    have hr : List.range (m + 1) = 0 :: List.range' 1 m := by
      rw [List.range_eq_range', List.range'_succ]
    have hsum : (List.range (m + 1)).foldl
        (fun sum i => Dbl.add sum (Dbl.exp exp (Dbl.sub (x i)
          (max_element (x 0) ((List.range' 1 m).map x))))) (Dbl.fin 0)
        = ((List.range (m + 1)).map x).foldl
          (fun sum xi => Dbl.add sum (Dbl.exp exp (Dbl.sub xi
            (max_element (x 0) ((List.range' 1 m).map x))))) (Dbl.fin 0) := by
      rw [List.foldl_map]
    have hmax : (List.range' 1 m).foldl
        (fun max_val i => if Dbl.gt (x i) max_val then x i else max_val) (x 0)
        = max_element (x 0) ((List.range' 1 m).map x) := by
      simp only [max_element, List.foldl_map, Dbl.gt]
    simp only [log_sum_exp_buf, Nat.succ_ne_zero, if_false, Nat.add_sub_cancel, hmax, hsum]
    rw [hr]
    rfl

/-- In exact real arithmetic, for every sequence of finite values and every permutation
of it, `log_sum_exp` returns the same value on both. -/
theorem log_sum_exp_perm (xs ys : List ℝ) (h : xs.Perm ys) :
    log_sum_exp Real.exp Real.log (ys.map Dbl.fin)
      = log_sum_exp Real.exp Real.log (xs.map Dbl.fin) := by
  by_cases hx : xs = []
  · subst hx
    rw [List.Perm.nil_eq h]
  · have hy : ys ≠ [] := by
      intro hy
      subst hy
      exact hx (List.Perm.eq_nil h)
    rw [log_sum_exp_fin xs hx, log_sum_exp_fin ys hy, List.Perm.sum_eq (List.Perm.map _ h)]

/-- The sequence `1, 2` and its reversal. -/
theorem log_sum_exp_perm_witness :
    log_sum_exp Real.exp Real.log [Dbl.fin 2, Dbl.fin 1]
      = log_sum_exp Real.exp Real.log [Dbl.fin 1, Dbl.fin 2] :=
  log_sum_exp_perm [1, 2] [2, 1] (List.Perm.swap 2 1 [])

/-- With a NaN among the elements the value depends on the order: the scan for the
maximum keeps a leading NaN and skips a later one. -/
theorem log_sum_exp_nan_order :
    log_sum_exp Real.exp Real.log [Dbl.nan, Dbl.pinf] = Dbl.nan ∧
      log_sum_exp Real.exp Real.log [Dbl.pinf, Dbl.nan] = Dbl.pinf :=
  ⟨rfl, rfl⟩

end numerical

/-! ## The comparator `approx_equal` of `numerical.hpp` -/

namespace numerical

variable {K : Type}

theorem abs_sub_symm [LinearOrderedField K] (a b : Dbl K) :
    Dbl.abs (Dbl.sub a b) = Dbl.abs (Dbl.sub b a) := by
  cases a <;> cases b <;> simp [Dbl.abs, Dbl.sub, abs_sub_comm]

theorem stdmax_abs_symm [LinearOrderedField K] (a b : Dbl K) (ha : a ≠ Dbl.nan)
    (hb : b ≠ Dbl.nan) :
    Dbl.stdmax (Dbl.abs a) (Dbl.abs b) = Dbl.stdmax (Dbl.abs b) (Dbl.abs a) := by
  cases a <;> cases b <;> simp_all [Dbl.abs, Dbl.stdmax, Dbl.lt]
  rename_i x y
  rcases lt_trichotomy |x| |y| with h | h | h
  · simp [h, not_lt.mpr h.le]
  · simp [h]
  · simp [h, not_lt.mpr h.le]

/-- C13: when `a` is NaN or `b` is NaN, `approx_equal` returns false, whatever the other
operand and the tolerances are; `approx_equal(NaN, NaN)` is false. -/
theorem approx_equal_nan [LinearOrderedField K] (v rel_tol abs_tol : Dbl K) :
    approx_equal Dbl.nan v rel_tol abs_tol = false ∧
      approx_equal v Dbl.nan rel_tol abs_tol = false ∧
      approx_equal_default (Dbl.nan : Dbl K) Dbl.nan = false := by
  refine ⟨?_, ?_, ?_⟩
  · simp [approx_equal, Dbl.isnan]
  · simp [approx_equal, Dbl.isnan]
  · simp [approx_equal_default, approx_equal, Dbl.isnan]

/-- C14: on two infinite operands `approx_equal` returns true exactly when they have the
same sign, whatever the tolerances are. -/
theorem approx_equal_inf_inf [LinearOrderedField K] (rel_tol abs_tol : Dbl K) :
    approx_equal Dbl.pinf Dbl.pinf rel_tol abs_tol = true ∧
      approx_equal Dbl.ninf Dbl.ninf rel_tol abs_tol = true ∧
      approx_equal Dbl.pinf Dbl.ninf rel_tol abs_tol = false ∧
      approx_equal Dbl.ninf Dbl.pinf rel_tol abs_tol = false := by
  refine ⟨?_, ?_, ?_, ?_⟩ <;> simp [approx_equal, Dbl.isnan, Dbl.isinf, Dbl.gt, Dbl.lt]

/-- C16 fails on the code: with the default tolerances an infinite operand and the
finite operand `1.0` are reported equal, because `rel_tol * ∞` is `∞` and `∞ <= ∞`. -/
theorem approx_equal_inf_finite_true :
    approx_equal_default (Dbl.pinf : Dbl ℚ) (Dbl.fin 1) = true ∧
      approx_equal_default (Dbl.fin 1 : Dbl ℚ) Dbl.pinf = true ∧
      approx_equal_default (Dbl.ninf : Dbl ℚ) (Dbl.fin 1) = true := by
  refine ⟨?_, ?_, ?_⟩ <;>
    simp [approx_equal_default, approx_equal, Dbl.isnan, Dbl.isinf, Dbl.sub, Dbl.abs,
      Dbl.stdmax, Dbl.mul, Dbl.lt, Dbl.le]

/-- With one infinite and one finite operand and finite tolerances that are not
negative, the code returns true exactly when `rel_tol` is positive. -/
theorem approx_equal_inf_finite_iff [LinearOrderedField K] (b rel_tol abs_tol : K)
    (hr : 0 ≤ rel_tol) :
    (approx_equal Dbl.pinf (Dbl.fin b) (Dbl.fin rel_tol) (Dbl.fin abs_tol) = true
      ↔ 0 < rel_tol) ∧
    (approx_equal Dbl.ninf (Dbl.fin b) (Dbl.fin rel_tol) (Dbl.fin abs_tol) = true
      ↔ 0 < rel_tol) ∧
    (approx_equal (Dbl.fin b) Dbl.pinf (Dbl.fin rel_tol) (Dbl.fin abs_tol) = true
      ↔ 0 < rel_tol) ∧
    (approx_equal (Dbl.fin b) Dbl.ninf (Dbl.fin rel_tol) (Dbl.fin abs_tol) = true
      ↔ 0 < rel_tol) := by
  rcases hr.lt_or_eq with h | h
  · have hn : ¬ rel_tol < 0 := not_lt.mpr hr
    refine ⟨?_, ?_, ?_, ?_⟩ <;>
      simp [approx_equal, Dbl.isnan, Dbl.isinf, Dbl.sub, Dbl.abs, Dbl.stdmax, Dbl.mul,
        Dbl.lt, Dbl.le, h]
  · subst h
    refine ⟨?_, ?_, ?_, ?_⟩ <;>
      simp [approx_equal, Dbl.isnan, Dbl.isinf, Dbl.sub, Dbl.abs, Dbl.stdmax, Dbl.mul,
        Dbl.lt, Dbl.le]

/-- C19: `approx_equal` is symmetric in its operands, for all doubles `a` and `b`
(finite, infinite or NaN) and all tolerances. -/
theorem approx_equal_symm [LinearOrderedField K] (a b rel_tol abs_tol : Dbl K) :
    approx_equal a b rel_tol abs_tol = approx_equal b a rel_tol abs_tol := by
  by_cases ha : a = Dbl.nan
  · subst ha
    simp [approx_equal, Dbl.isnan]
  by_cases hb : b = Dbl.nan
  · subst hb
    simp [approx_equal, Dbl.isnan]
  have hna : Dbl.isnan a = false := by cases a <;> simp_all [Dbl.isnan]
  have hnb : Dbl.isnan b = false := by cases b <;> simp_all [Dbl.isnan]
  simp only [approx_equal, hna, hnb, abs_sub_symm a b, stdmax_abs_symm a b ha hb,
    Bool.and_comm (Dbl.isinf a), Bool.beq_comm (a := Dbl.gt a (Dbl.fin 0))]

end numerical

/-! ## Kahan summation in exact arithmetic, and log-sum-exp on infinities -/

namespace numerical

variable {K : Type}

/-- In exact arithmetic one iteration of the Kahan loop from `(sum, 0)` gives
`(sum + x, 0)`, whatever the accumulated sum and the element are. -/
theorem kahan_step_exact [Field K] (s x : K) :
    kahan_step Dbl.fin (Dbl.fin s, Dbl.fin 0) (Dbl.fin x) = (Dbl.fin (s + x), Dbl.fin 0) := by
  have h0 : s + (x - 0) - s - (x - 0) = (0 : K) := by ring
  have h1 : s + (x - 0) = s + x := by ring
  simp only [kahan_step, Dbl.rsub, Dbl.radd]
  rw [h0, h1]

theorem kahan_fold_exact [Field K] (xs : List K) :
    ∀ s : K, (xs.map Dbl.fin).foldl (kahan_step Dbl.fin) (Dbl.fin s, Dbl.fin 0)
      = (Dbl.fin (s + xs.sum), Dbl.fin 0) := by
  induction xs with
  | nil => intro s; simp
  | cons x t ih =>
    intro s
    simp only [List.map_cons, List.foldl_cons, List.sum_cons]
    rw [kahan_step_exact, ih (s + x), add_assoc]

theorem kahan_loop_exact [Field K] (xs : List K) :
    kahan_loop Dbl.fin (xs.map Dbl.fin) = (Dbl.fin xs.sum, Dbl.fin 0) := by
  have h := kahan_fold_exact xs 0
  rw [zero_add] at h
  exact h

theorem radd_exact [Field K] (a b : K) :
    Dbl.radd Dbl.fin (Dbl.fin a) (Dbl.fin b) = Dbl.fin (a + b) := rfl

theorem naive_fold_exact [Field K] (xs : List K) :
    ∀ s : K,
      (xs.map Dbl.fin).foldl (fun naive_sum xi => Dbl.radd Dbl.fin naive_sum xi) (Dbl.fin s)
        = Dbl.fin (s + xs.sum) := by
  induction xs with
  | nil => intro s; simp
  | cons x t ih =>
    intro s
    simp only [List.map_cons, List.foldl_cons, List.sum_cons]
    rw [radd_exact, ih (s + x), add_assoc]

/-- C17: in exact arithmetic, for every sequence the pair `(sum, c)` of the Kahan loop
is `(plain sum, 0)` after the elements of every prefix, so `c` is 0 after every
iteration; `kahan_sum` returns the plain sum of the elements (0 on the empty sequence),
which is what the naive left-to-right summation returns. -/
theorem kahan_sum_exact [Field K] (xs : List K) :
    (∀ k : Nat, kahan_loop Dbl.fin ((xs.take k).map Dbl.fin)
      = (Dbl.fin (xs.take k).sum, Dbl.fin 0)) ∧
    kahan_sum Dbl.fin (xs.map Dbl.fin) = Dbl.fin xs.sum ∧
    kahan_sum Dbl.fin ([] : List (Dbl K)) = Dbl.fin 0 ∧
    kahan_sum Dbl.fin (xs.map Dbl.fin) = naive_sum Dbl.fin (xs.map Dbl.fin) := by
  refine ⟨fun k => kahan_loop_exact (xs.take k), ?_, rfl, ?_⟩
  · rw [kahan_sum, kahan_loop_exact]
  · have h := naive_fold_exact xs 0
    rw [zero_add] at h
    rw [kahan_sum, kahan_loop_exact, naive_sum, h]

/-- Without NaN, the scan of `std::max_element` ends on `+∞` as soon as `+∞` is the
first element or occurs later. -/
theorem max_element_pinf [LinearOrder K] (rest : List (Dbl K)) :
    ∀ first : Dbl K, first ≠ Dbl.nan → (∀ v ∈ rest, v ≠ Dbl.nan) →
      (first = Dbl.pinf ∨ Dbl.pinf ∈ rest) → max_element first rest = Dbl.pinf := by
  induction rest with
  | nil =>
    intro first _ _ h
    rcases h with h | h
    · simpa [max_element] using h
    · simp at h
  | cons b t ih =>
    intro first hf hnan h
    have hb : b ≠ Dbl.nan := hnan b (List.mem_cons_self b t)
    have ht : ∀ v ∈ t, v ≠ Dbl.nan := fun v hv => hnan v (List.mem_cons_of_mem b hv)
    show max_element (if Dbl.lt first b then b else first) t = Dbl.pinf
    apply ih
    · split <;> assumption
    · exact ht
    · rcases h with h | h
      · subst h
        left
        cases b <;> simp [Dbl.lt]
      · rcases List.mem_cons.mp h with h | h
        · subst h
          left
          cases first <;> simp_all [Dbl.lt]
        · right
          exact h

theorem max_element_ninf [LinearOrder K] (rest : List (Dbl K))
    (h : ∀ v ∈ rest, v = Dbl.ninf) : max_element Dbl.ninf rest = Dbl.ninf := by
  induction rest with
  | nil => rfl
  | cons b t ih =>
    have hb : b = Dbl.ninf := h b (List.mem_cons_self b t)
    subst hb
    show max_element (if Dbl.lt Dbl.ninf Dbl.ninf then Dbl.ninf else Dbl.ninf) t = Dbl.ninf
    simp only [ite_self]
    exact ih (fun v hv => h v (List.mem_cons_of_mem _ hv))

/-- The buffer form of `log_sum_exp` on `x, n` is the sequence form on the sequence
`x[0], ..., x[n - 1]`. -/
theorem log_sum_exp_buf_range [LinearOrderedField K] (exp log : K → K) (x : Nat → Dbl K)
    (n : Nat) :
    log_sum_exp_buf exp log x n = log_sum_exp exp log ((List.range n).map x) := by
  cases n with
  | zero => rfl
  | succ m =>
    have hr : List.range (m + 1) = 0 :: List.range' 1 m := by
      rw [List.range_eq_range', List.range'_succ]
    have hsum : (List.range (m + 1)).foldl
        (fun sum i => Dbl.add sum (Dbl.exp exp (Dbl.sub (x i)
          (max_element (x 0) ((List.range' 1 m).map x))))) (Dbl.fin 0)
        = ((List.range (m + 1)).map x).foldl
          (fun sum xi => Dbl.add sum (Dbl.exp exp (Dbl.sub xi
            (max_element (x 0) ((List.range' 1 m).map x))))) (Dbl.fin 0) := by
      rw [List.foldl_map]
    have hmax : (List.range' 1 m).foldl
        (fun max_val i => if Dbl.gt (x i) max_val then x i else max_val) (x 0)
        = max_element (x 0) ((List.range' 1 m).map x) := by
      simp only [max_element, List.foldl_map, Dbl.gt]
    simp only [log_sum_exp_buf, Nat.succ_ne_zero, if_false, Nat.add_sub_cancel, hmax, hsum]
    rw [hr]
    rfl

/-- On a non-empty sequence without NaN, `log_sum_exp` returns `+∞` when `+∞` is an
element and `-∞` when every element is `-∞`, whatever `exp` and `log` are. -/
theorem log_sum_exp_of_inf [LinearOrderedField K] (exp log : K → K) (x : List (Dbl K))
    (hne : x ≠ []) (hnan : ∀ v ∈ x, v ≠ Dbl.nan) :
    (Dbl.pinf ∈ x → log_sum_exp exp log x = Dbl.pinf) ∧
      ((∀ v ∈ x, v = Dbl.ninf) → log_sum_exp exp log x = Dbl.ninf) := by
  cases x with
  | nil => exact absurd rfl hne
  | cons x0 rest =>
    constructor
    · intro h
      have hm : max_element x0 rest = Dbl.pinf :=
        max_element_pinf rest x0 (hnan x0 (List.mem_cons_self _ _))
          (fun v hv => hnan v (List.mem_cons_of_mem _ hv))
          (by
            rcases List.mem_cons.mp h with h | h
            · exact Or.inl h.symm
            · exact Or.inr h)
      simp [log_sum_exp, hm, Dbl.isfinite]
    · intro h
      have h0 : x0 = Dbl.ninf := h x0 (List.mem_cons_self _ _)
      subst h0
      have hm : max_element Dbl.ninf rest = Dbl.ninf :=
        max_element_ninf rest (fun v hv => h v (List.mem_cons_of_mem _ hv))
      simp [log_sum_exp, hm, Dbl.isfinite]

/-- C18: on every non-empty sequence without NaN, both forms of `log_sum_exp` return
`+∞` when some element is `+∞` and `-∞` when every element is `-∞`: the non-finite
maximum is returned as it is, and the value does not depend on `exp` or `log`. -/
theorem log_sum_exp_infinite_max [LinearOrderedField K] (exp log : K → K)
    (x : List (Dbl K)) (hne : x ≠ []) (hnan : ∀ v ∈ x, v ≠ Dbl.nan) :
    (Dbl.pinf ∈ x → log_sum_exp exp log x = Dbl.pinf ∧
      ∀ (buf : Nat → Dbl K) (n : Nat), (List.range n).map buf = x →
        log_sum_exp_buf exp log buf n = Dbl.pinf) ∧
    ((∀ v ∈ x, v = Dbl.ninf) → log_sum_exp exp log x = Dbl.ninf ∧
      ∀ (buf : Nat → Dbl K) (n : Nat), (List.range n).map buf = x →
        log_sum_exp_buf exp log buf n = Dbl.ninf) := by
  obtain ⟨h1, h2⟩ := log_sum_exp_of_inf exp log x hne hnan
  constructor
  · intro h
    refine ⟨h1 h, ?_⟩
    intro buf n hx
    rw [log_sum_exp_buf_range, hx]
    exact h1 h
  · intro h
    refine ⟨h2 h, ?_⟩
    intro buf n hx
    rw [log_sum_exp_buf_range, hx]
    exact h2 h

/-- The sequences `1, +∞, -∞` and `-∞, -∞`, with functions that are not the exponential
and the logarithm. -/
theorem log_sum_exp_infinite_max_witness :
    log_sum_exp (fun _ => (7 : ℚ)) (fun _ => 7) [Dbl.fin 1, Dbl.pinf, Dbl.ninf] = Dbl.pinf ∧
      log_sum_exp_buf (fun _ => (7 : ℚ)) (fun _ => 7)
        (fun i => if i = 0 then Dbl.fin 1 else if i = 1 then Dbl.pinf else Dbl.ninf) 3
        = Dbl.pinf := by
  have h := (log_sum_exp_infinite_max (fun _ => (7 : ℚ)) (fun _ => 7)
    [Dbl.fin 1, Dbl.pinf, Dbl.ninf] (by simp) (by simp)).1 (by simp)
  exact ⟨h.1, h.2 _ 3 (by simp [List.range_succ])⟩

end numerical

/-! ## The in-place softmax of `numerical.hpp` -/

namespace numerical

variable {K : Type}

theorem softmax_step_fin [LinearOrderedField K] (e : K → K) (m s b : K)
    (acc : List (Dbl K)) :
    softmax_step e (Dbl.fin m) (acc, Dbl.fin s) (Dbl.fin b)
      = (acc ++ [Dbl.fin (e (b - m))], Dbl.fin (s + e (b - m))) := rfl

/-- On exact values the first loop of `softmax_inplace` stores the shifted exponentials
and accumulates their plain sum. -/
theorem softmax_fold_fin [LinearOrderedField K] (e : K → K) (m : K) (l : List K) :
    ∀ (acc : List (Dbl K)) (s : K),
      (l.map Dbl.fin).foldl (softmax_step e (Dbl.fin m)) (acc, Dbl.fin s)
        = (acc ++ l.map (fun v => Dbl.fin (e (v - m))),
            Dbl.fin (s + (l.map (fun v => e (v - m))).sum)) := by
  induction l with
  | nil => intro acc s; simp
  | cons b t ih =>
    intro acc s
    simp only [List.map_cons, List.foldl_cons, List.sum_cons]
    rw [softmax_step_fin, ih, List.append_assoc, add_assoc]
    rfl

/-- On a non-empty sequence of finite reals `softmax_inplace` leaves, at each place, the
exponential of the element over the sum of the exponentials. -/
theorem softmax_inplace_fin (xs : List ℝ) (hne : xs ≠ []) :
    softmax_inplace Real.exp (xs.map Dbl.fin)
      = xs.map (fun v => Dbl.fin (Real.exp v / (xs.map Real.exp).sum)) := by
  cases xs with
  | nil => exact absurd rfl hne
  | cons a rest =>
    have hpos : 0 < ((a :: rest).map Real.exp).sum := sum_exp_pos _ (by simp)
    have hS : ((a :: rest).map Real.exp).sum * Real.exp (-(rest.foldl max a)) ≠ 0 :=
      ne_of_gt (mul_pos hpos (Real.exp_pos _))
    have hfold : (Dbl.fin a :: rest.map Dbl.fin).foldl
        (softmax_step Real.exp (Dbl.fin (rest.foldl max a))) ([], Dbl.fin 0)
        = ([] ++ (a :: rest).map (fun v => Dbl.fin (Real.exp (v - rest.foldl max a))),
            Dbl.fin (0 + ((a :: rest).map
              (fun v => Real.exp (v - rest.foldl max a))).sum)) :=
      softmax_fold_fin Real.exp (rest.foldl max a) (a :: rest) [] 0
    show softmax_inplace Real.exp (Dbl.fin a :: rest.map Dbl.fin) = _
    simp only [softmax_inplace, max_element_fin]
    rw [hfold, zero_add, sum_exp_shift, List.nil_append, List.map_map]
    apply List.map_congr_left
    intro v _
    simp only [Function.comp, Dbl.div, hS, if_false]
    congr 1
    rw [sub_eq_add_neg, Real.exp_add]
    exact mul_div_mul_right _ _ (ne_of_gt (Real.exp_pos _))

theorem sum_exp_add (c : ℝ) (l : List ℝ) :
    ((l.map (fun v => v + c)).map Real.exp).sum = (l.map Real.exp).sum * Real.exp c := by
  induction l with
  | nil => simp
  | cons b t ih =>
    simp only [List.map_cons, List.sum_cons]
    rw [ih, Real.exp_add]
    ring

/-- C20: in exact real arithmetic, on a non-empty sequence of finite values
`log_sum_exp` returns a finite `l`, entry `i` of the result of `softmax_inplace` is
`exp (x_i - l)` for every index `i`, and adding a constant to every element does not
change the result of `softmax_inplace`. -/
theorem softmax_inplace_eq_exp_sub_log_sum_exp (xs : List ℝ) (hne : xs ≠ []) :
    ∃ l, log_sum_exp Real.exp Real.log (xs.map Dbl.fin) = Dbl.fin l ∧
      softmax_inplace Real.exp (xs.map Dbl.fin)
        = xs.map (fun v => Dbl.fin (Real.exp (v - l))) ∧
      (∀ (i : Nat) (hi : i < xs.length),
        (softmax_inplace Real.exp (xs.map Dbl.fin))[i]?
          = some (Dbl.fin (Real.exp (xs.get ⟨i, hi⟩ - l)))) ∧
      ∀ c : ℝ, softmax_inplace Real.exp ((xs.map (fun v => v + c)).map Dbl.fin)
        = softmax_inplace Real.exp (xs.map Dbl.fin) := by
  have hpos : 0 < (xs.map Real.exp).sum := sum_exp_pos xs hne
  have hlist : softmax_inplace Real.exp (xs.map Dbl.fin)
      = xs.map (fun v => Dbl.fin (Real.exp (v - Real.log (xs.map Real.exp).sum))) := by
    rw [softmax_inplace_fin xs hne]
    apply List.map_congr_left
    intro v _
    rw [Real.exp_sub, Real.exp_log hpos]
  refine ⟨Real.log (xs.map Real.exp).sum, log_sum_exp_fin xs hne, hlist, ?_, ?_⟩
  · intro i hi
    rw [hlist, List.getElem?_map, List.getElem?_eq_getElem hi]
    rfl
  · intro c
    have hne2 : xs.map (fun v => v + c) ≠ [] := by simpa using hne
    rw [softmax_inplace_fin _ hne2, softmax_inplace_fin xs hne, sum_exp_add, List.map_map]
    apply List.map_congr_left
    intro v _
    simp only [Function.comp]
    congr 1
    rw [Real.exp_add]
    exact mul_div_mul_right _ _ (ne_of_gt (Real.exp_pos _))

/-- The sequence `1, 2`. -/
theorem softmax_inplace_eq_exp_sub_log_sum_exp_witness :
    ∃ l, log_sum_exp Real.exp Real.log [Dbl.fin 1, Dbl.fin 2] = Dbl.fin l ∧
      softmax_inplace Real.exp [Dbl.fin 1, Dbl.fin 2]
        = [Dbl.fin (Real.exp (1 - l)), Dbl.fin (Real.exp (2 - l))] := by
  obtain ⟨l, h1, h2, -⟩ := softmax_inplace_eq_exp_sub_log_sum_exp [1, 2] (by simp)
  exact ⟨l, h1, h2⟩

end numerical

/-! ## Kahan summation in binary64 arithmetic -/

namespace numerical

variable {K : Type} [LinearOrderedField K] [FloorRing K]

theorem int_log_two_eq {r : K} {j : ℤ} (h1 : (2 : K) ^ j ≤ r) (h2 : r < (2 : K) ^ (j + 1)) :
    Int.log 2 r = j := by
  have hr : 0 < r := lt_of_lt_of_le (zpow_pos (by norm_num) j) h1
  have a : j ≤ Int.log 2 r :=
    (Int.zpow_le_iff_le_log (by norm_num) hr).mp (by exact_mod_cast h1)
  have b : Int.log 2 r < j + 1 :=
    (Int.lt_zpow_iff_log_lt (by norm_num) hr).mp (by exact_mod_cast h2)
  omega

theorem roundHalfEven_intCast (m : ℤ) : roundHalfEven (m : K) = m := by
  simp [roundHalfEven]

theorem roundHalfEven_add_half (k : ℤ) :
    roundHalfEven ((k : K) + 1 / 2) = if k % 2 = 0 then k else k + 1 := by
  have hf : ⌊(k : K) + 1 / 2⌋ = k := by
    rw [Int.floor_eq_iff]
    constructor <;> norm_num
  simp only [roundHalfEven, hf]
  norm_num

theorem round64_zero : round64 (0 : K) = Dbl.fin 0 := by
  simp [round64]

/-- A double rounds to itself: `m * 2 ^ j` with a significand `m` of exactly 53 bits
and an exponent `j` in the range of the normal doubles. -/
theorem round64_of_significand (m j : ℤ) (hm1 : 2 ^ 52 ≤ |m|) (hm2 : |m| < 2 ^ 53)
    (hj1 : -1074 ≤ j) (hj2 : j ≤ 971) :
    round64 ((m : K) * (2 : K) ^ j) = Dbl.fin ((m : K) * (2 : K) ^ j) := by
  have hpow : (0 : K) < (2 : K) ^ j := zpow_pos (by norm_num) j
  have hm1q : (2 : K) ^ (52 : ℤ) ≤ |(m : K)| := by
    have : ((2 ^ 52 : ℤ) : K) ≤ ((|m| : ℤ) : K) := by exact_mod_cast hm1
    norm_num at this ⊢
    exact this
  have hm2q : |(m : K)| < (2 : K) ^ (53 : ℤ) := by
    have : ((|m| : ℤ) : K) < ((2 ^ 53 : ℤ) : K) := by exact_mod_cast hm2
    norm_num at this ⊢
    exact this
  have hm0 : (m : K) ≠ 0 := by
    intro h
    rw [h, abs_zero] at hm1q
    have : (0 : K) < (2 : K) ^ (52 : ℤ) := zpow_pos (by norm_num) 52
    linarith
  have hq0 : (m : K) * (2 : K) ^ j ≠ 0 := mul_ne_zero hm0 (ne_of_gt hpow)
  have habs : |(m : K) * (2 : K) ^ j| = |(m : K)| * (2 : K) ^ j := by
    rw [abs_mul, abs_of_pos hpow]
  have hlog : Int.log 2 |(m : K) * (2 : K) ^ j| = 52 + j := by
    apply int_log_two_eq
    · rw [habs, zpow_add₀ (by norm_num : (2 : K) ≠ 0)]
      exact mul_le_mul_of_nonneg_right hm1q hpow.le
    · rw [habs, show 52 + j + 1 = 53 + j by ring, zpow_add₀ (by norm_num : (2 : K) ≠ 0)]
      exact mul_lt_mul_of_pos_right hm2q hpow
  have he : max (52 + j) (-1022) - 52 = j := by
    rw [max_eq_left (by omega)]
    ring
  have hdiv : (m : K) * (2 : K) ^ j / (2 : K) ^ j = (m : K) :=
    mul_div_cancel_right₀ _ (ne_of_gt hpow)
  have hbig : ¬ (2 ^ 53 - 1) * (2 : K) ^ (971 : ℤ) < |(m : K) * (2 : K) ^ j| := by
    rw [not_lt, habs]
    have h1 : |(m : K)| ≤ 2 ^ 53 - 1 := by
      have : ((|m| : ℤ) : K) ≤ ((2 ^ 53 - 1 : ℤ) : K) := by
        exact_mod_cast (by omega : |m| ≤ 2 ^ 53 - 1)
      norm_num at this ⊢
      exact this
    have h2 : (2 : K) ^ j ≤ (2 : K) ^ (971 : ℤ) :=
      zpow_le_zpow_right₀ (by norm_num) hj2
    exact mul_le_mul h1 h2 hpow.le (by norm_num)
  simp only [round64, hq0, if_false, hlog, he, hdiv, roundHalfEven_intCast, hbig]

theorem round64_one : round64 (1 : K) = Dbl.fin 1 := by
  have h := round64_of_significand (K := K) (2 ^ 52) (-52) (by norm_num) (by norm_num) (by norm_num)
    (by norm_num)
  have e : (((2 ^ 52 : ℤ)) : K) * (2 : K) ^ (-52 : ℤ) = 1 := by norm_num
  rw [e] at h
  exact h

theorem round64_neg_one : round64 (-1 : K) = Dbl.fin (-1) := by
  have h := round64_of_significand (K := K) (-(2 ^ 52)) (-52) (by norm_num) (by norm_num)
    (by norm_num) (by norm_num)
  have e : (((-(2 ^ 52) : ℤ)) : K) * (2 : K) ^ (-52 : ℤ) = -1 := by norm_num
  rw [e] at h
  exact h

theorem round64_two : round64 (2 : K) = Dbl.fin 2 := by
  have h := round64_of_significand (K := K) (2 ^ 52) (-51) (by norm_num) (by norm_num) (by norm_num)
    (by norm_num)
  have e : (((2 ^ 52 : ℤ)) : K) * (2 : K) ^ (-51 : ℤ) = 2 := by norm_num
  rw [e] at h
  exact h

/-- Between `2 ^ 53` and `2 ^ 54` the doubles are the even integers. -/
theorem round64_even (k : ℤ) (h1 : 2 ^ 52 ≤ k) (h2 : k < 2 ^ 53) :
    round64 (2 * (k : K)) = Dbl.fin (2 * (k : K)) := by
  have h := round64_of_significand (K := K) k 1 (by rw [abs_of_nonneg (by omega)]; exact h1)
    (by rw [abs_of_nonneg (by omega)]; exact h2) (by norm_num) (by norm_num)
  have e : (k : K) * (2 : K) ^ (1 : ℤ) = 2 * (k : K) := by
    rw [zpow_one]
    ring
  rw [e] at h
  exact h

/-- Between `2 ^ 53` and `2 ^ 54` an odd integer `2 * k + 1` is half-way between two
doubles, and rounds to the one whose significand is even. -/
theorem round64_odd (k : ℤ) (h1 : 2 ^ 52 ≤ k) (h2 : k < 2 ^ 53) :
    round64 (2 * (k : K) + 1)
      = Dbl.fin (2 * (((if k % 2 = 0 then k else k + 1 : ℤ)) : K)) := by
  have hk1 : (2 : K) ^ (52 : ℤ) ≤ (k : K) := by
    have : ((2 ^ 52 : ℤ) : K) ≤ (k : K) := by exact_mod_cast h1
    norm_num at this ⊢
    exact this
  have hk2 : (k : K) + 1 ≤ (2 : K) ^ (53 : ℤ) := by
    have : ((k + 1 : ℤ) : K) ≤ ((2 ^ 53 : ℤ) : K) := by exact_mod_cast (by omega : k + 1 ≤ 2 ^ 53)
    norm_num at this ⊢
    exact this
  have hpos : (0 : K) < 2 * (k : K) + 1 := by
    have : (0 : K) < (2 : K) ^ (52 : ℤ) := zpow_pos (by norm_num) 52
    linarith
  have hlog : Int.log 2 |2 * (k : K) + 1| = 53 := by
    rw [abs_of_pos hpos]
    apply int_log_two_eq
    · have : (2 : K) ^ (53 : ℤ) = 2 * (2 : K) ^ (52 : ℤ) := by norm_num
      rw [this]
      linarith
    · have : (2 : K) ^ ((53 : ℤ) + 1) = 2 * (2 : K) ^ (53 : ℤ) := by norm_num
      rw [this]
      linarith
  have he : max (53 : ℤ) (-1022) - 52 = 1 := by norm_num
  have hdiv : (2 * (k : K) + 1) / (2 : K) ^ (1 : ℤ) = (k : K) + 1 / 2 := by
    rw [zpow_one]
    ring
  have hr : (0 : K) ≤ (((if k % 2 = 0 then k else k + 1 : ℤ)) : K) ∧
      (((if k % 2 = 0 then k else k + 1 : ℤ)) : K) ≤ (2 : K) ^ (53 : ℤ) := by
    have hk0 : (0 : K) ≤ (k : K) := by
      have : (0 : K) < (2 : K) ^ (52 : ℤ) := zpow_pos (by norm_num) 52
      linarith
    split
    · exact ⟨hk0, by linarith⟩
    · push_cast
      exact ⟨by linarith, hk2⟩
  have hbig : ¬ (2 ^ 53 - 1) * (2 : K) ^ (971 : ℤ)
      < |(((if k % 2 = 0 then k else k + 1 : ℤ)) : K) * (2 : K) ^ (1 : ℤ)| := by
    rw [not_lt, zpow_one, abs_of_nonneg (mul_nonneg hr.1 (by norm_num))]
    calc (((if k % 2 = 0 then k else k + 1 : ℤ)) : K) * 2
        ≤ (2 : K) ^ (53 : ℤ) * 2 := mul_le_mul_of_nonneg_right hr.2 (by norm_num)
      _ ≤ (2 ^ 53 - 1) * (2 : K) ^ (971 : ℤ) := by norm_num
  simp only [round64, ne_of_gt hpos, if_false, hlog, he, hdiv, roundHalfEven_add_half, hbig]
  rw [zpow_one, mul_comm]

theorem rsub_fin (r : ℚ → Dbl ℚ) (a b : ℚ) :
    Dbl.rsub r (Dbl.fin a) (Dbl.fin b) = r (a - b) := rfl

theorem radd_fin (r : ℚ → Dbl ℚ) (a b : ℚ) :
    Dbl.radd r (Dbl.fin a) (Dbl.fin b) = r (a + b) := rfl

/-- One iteration of the Kahan loop on finite values, from the four roundings it
performs. -/
theorem kahan_step_round (r : ℚ → Dbl ℚ) (s c x y t d c1 : ℚ) (hy : r (x - c) = Dbl.fin y)
    (ht : r (s + y) = Dbl.fin t) (hd : r (t - s) = Dbl.fin d)
    (hc : r (d - y) = Dbl.fin c1) :
    kahan_step r (Dbl.fin s, Dbl.fin c) (Dbl.fin x) = (Dbl.fin t, Dbl.fin c1) := by
  simp only [kahan_step, rsub_fin, hy, radd_fin, ht, hd, hc]

theorem round64_base_even (i : ℕ) (hi : i ≤ 2000000000000000) :
    round64 (10000000000000000 + 2 * (i : ℚ)) = Dbl.fin (10000000000000000 + 2 * (i : ℚ)) := by
  have h := round64_even (K := ℚ) (5000000000000000 + (i : ℤ)) (by norm_num; omega) (by norm_num; omega)
  have e : 2 * (((5000000000000000 + (i : ℤ) : ℤ)) : ℚ) = 10000000000000000 + 2 * (i : ℚ) := by
    push_cast
    ring
  rw [e] at h
  exact h

theorem round64_base_odd_down (i : ℕ) (hi : i < 1000000000000000) :
    round64 (10000000000000000 + 4 * (i : ℚ) + 1)
      = Dbl.fin (10000000000000000 + 4 * (i : ℚ)) := by
  have h := round64_odd (K := ℚ) (5000000000000000 + 2 * (i : ℤ)) (by norm_num; omega)
    (by norm_num; omega)
  have hk : (5000000000000000 + 2 * (i : ℤ)) % 2 = 0 := by omega
  rw [if_pos hk] at h
  have e1 : 2 * (((5000000000000000 + 2 * (i : ℤ) : ℤ)) : ℚ) + 1
      = 10000000000000000 + 4 * (i : ℚ) + 1 := by
    push_cast
    ring
  have e2 : 2 * (((5000000000000000 + 2 * (i : ℤ) : ℤ)) : ℚ)
      = 10000000000000000 + 4 * (i : ℚ) := by
    push_cast
    ring
  rw [e1, e2] at h
  exact h

theorem round64_base_odd_up (i : ℕ) (hi : i < 1000000000000000) :
    round64 (10000000000000000 + 4 * (i : ℚ) + 3)
      = Dbl.fin (10000000000000000 + 4 * (i : ℚ) + 4) := by
  have h := round64_odd (K := ℚ) (5000000000000000 + 2 * (i : ℤ) + 1) (by norm_num; omega)
    (by norm_num; omega)
  have hk : ¬ (5000000000000000 + 2 * (i : ℤ) + 1) % 2 = 0 := by omega
  rw [if_neg hk] at h
  have e1 : 2 * (((5000000000000000 + 2 * (i : ℤ) + 1 : ℤ)) : ℚ) + 1
      = 10000000000000000 + 4 * (i : ℚ) + 3 := by
    push_cast
    ring
  have e2 : 2 * (((5000000000000000 + 2 * (i : ℤ) + 1 + 1 : ℤ)) : ℚ)
      = 10000000000000000 + 4 * (i : ℚ) + 4 := by
    push_cast
    ring
  rw [e1, e2] at h
  exact h

/-- Four iterations of the Kahan loop on `1.0` from `(1e16 + 4 i, 0)`: the sum gains
exactly 4 and the compensation is 0 again. -/
theorem kahan_four_steps (i : ℕ) (hi : i < 1000000000000000) :
    kahan_step round64 (kahan_step round64 (kahan_step round64 (kahan_step round64
        (Dbl.fin (10000000000000000 + 4 * (i : ℚ)), Dbl.fin 0)
        (Dbl.fin 1)) (Dbl.fin 1)) (Dbl.fin 1)) (Dbl.fin 1)
      = (Dbl.fin (10000000000000000 + 4 * ((i + 1 : ℕ) : ℚ)), Dbl.fin 0) := by
  have s1 : kahan_step round64 (Dbl.fin (10000000000000000 + 4 * (i : ℚ)), Dbl.fin 0)
      (Dbl.fin 1) = (Dbl.fin (10000000000000000 + 4 * (i : ℚ)), Dbl.fin (-1)) := by
    apply kahan_step_round round64 _ _ _ 1 _ 0
    · rw [sub_zero]; exact round64_one
    · exact round64_base_odd_down i hi
    · rw [sub_self]; exact round64_zero
    · rw [zero_sub]; exact round64_neg_one
  have s2 : kahan_step round64 (Dbl.fin (10000000000000000 + 4 * (i : ℚ)), Dbl.fin (-1))
      (Dbl.fin 1) = (Dbl.fin (10000000000000000 + 4 * (i : ℚ) + 2), Dbl.fin 0) := by
    apply kahan_step_round round64 _ _ _ 2 _ 2
    · rw [show (1 : ℚ) - -1 = 2 by norm_num]; exact round64_two
    · have h := round64_base_even (2 * i + 1) (by omega)
      have e : (10000000000000000 : ℚ) + 2 * ((2 * i + 1 : ℕ) : ℚ)
          = 10000000000000000 + 4 * (i : ℚ) + 2 := by
        push_cast
        ring
      rw [e] at h
      exact h
    · rw [show (10000000000000000 : ℚ) + 4 * (i : ℚ) + 2 - (10000000000000000 + 4 * (i : ℚ))
        = 2 by ring]
      exact round64_two
    · rw [sub_self]; exact round64_zero
  have s3 : kahan_step round64 (Dbl.fin (10000000000000000 + 4 * (i : ℚ) + 2), Dbl.fin 0)
      (Dbl.fin 1) = (Dbl.fin (10000000000000000 + 4 * (i : ℚ) + 4), Dbl.fin 1) := by
    apply kahan_step_round round64 _ _ _ 1 _ 2
    · rw [sub_zero]; exact round64_one
    · rw [show (10000000000000000 : ℚ) + 4 * (i : ℚ) + 2 + 1
        = 10000000000000000 + 4 * (i : ℚ) + 3 by ring]
      exact round64_base_odd_up i hi
    · rw [show (10000000000000000 : ℚ) + 4 * (i : ℚ) + 4
        - (10000000000000000 + 4 * (i : ℚ) + 2) = 2 by ring]
      exact round64_two
    · rw [show (2 : ℚ) - 1 = 1 by norm_num]; exact round64_one
  have s4 : kahan_step round64 (Dbl.fin (10000000000000000 + 4 * (i : ℚ) + 4), Dbl.fin 1)
      (Dbl.fin 1) = (Dbl.fin (10000000000000000 + 4 * (i : ℚ) + 4), Dbl.fin 0) := by
    apply kahan_step_round round64 _ _ _ 0 _ 0
    · rw [sub_self]; exact round64_zero
    · rw [add_zero]
      have h := round64_base_even (2 * i + 2) (by omega)
      have e : (10000000000000000 : ℚ) + 2 * ((2 * i + 2 : ℕ) : ℚ)
          = 10000000000000000 + 4 * (i : ℚ) + 4 := by
        push_cast
        ring
      rw [e] at h
      exact h
    · rw [sub_self]; exact round64_zero
    · rw [sub_self]; exact round64_zero
  rw [s1, s2, s3, s4]
  congr 2
  push_cast
  ring

/-- The Kahan loop over `4 n` times `1.0` from `(1e16 + 4 i, 0)` ends on
`(1e16 + 4 (i + n), 0)`. -/
theorem kahan_fold_ones (n : ℕ) :
    ∀ i : ℕ, i + n < 1000000000000000 →
      (List.replicate (4 * n) (Dbl.fin (1 : ℚ))).foldl (kahan_step round64)
          (Dbl.fin (10000000000000000 + 4 * (i : ℚ)), Dbl.fin 0)
        = (Dbl.fin (10000000000000000 + 4 * ((i + n : ℕ) : ℚ)), Dbl.fin 0) := by
  induction n with
  | zero => intro i _; simp
  | succ n ih =>
    intro i hi
    have h4 : 4 * (n + 1) = 4 * n + 1 + 1 + 1 + 1 := by ring
    rw [h4, List.replicate_succ, List.replicate_succ, List.replicate_succ,
      List.replicate_succ, List.foldl_cons, List.foldl_cons, List.foldl_cons,
      List.foldl_cons, kahan_four_steps i (by omega), ih (i + 1) (by omega)]
    congr 3
    push_cast
    ring

/-- The naive loop over any number of `1.0` from `1e16` stays on `1e16`. -/
theorem naive_fold_ones (n : ℕ) :
    (List.replicate n (Dbl.fin (1 : ℚ))).foldl
        (fun naive_sum xi => Dbl.radd round64 naive_sum xi) (Dbl.fin 10000000000000000)
      = Dbl.fin 10000000000000000 := by
  induction n with
  | zero => rfl
  | succ n ih =>
    have h := round64_base_odd_down 0 (by norm_num)
    rw [show (10000000000000000 : ℚ) + 4 * ((0 : ℕ) : ℚ) + 1 = 10000000000000000 + 1 by
      norm_num, show (10000000000000000 : ℚ) + 4 * ((0 : ℕ) : ℚ) = 10000000000000000 by
      norm_num] at h
    rw [List.replicate_succ, List.foldl_cons, radd_fin, h, ih]

/-- C12: in IEEE-754 double arithmetic, on `1e16` followed by 10000 times `1.0`,
`kahan_sum` returns `1e16 + 10000` (so it is within `1e6` of it) and the naive
left-to-right sum returns `1e16`: the value of `kahan_sum` is strictly closer to
`1e16 + 10000` than the naive sum. -/
theorem kahan_sum_reduces_error :
    ∃ k n : ℚ, kahan_sum round64 kahan_test = Dbl.fin k ∧
      naive_sum round64 kahan_test = Dbl.fin n ∧
      k = 10000000000010000 ∧ n = 10000000000000000 ∧
      |k - (10000000000000000 + 10000)| ≤ 1000000 ∧
      |k - (10000000000000000 + 10000)| < |n - (10000000000000000 + 10000)| := by
  have hB : round64 (10000000000000000 : ℚ) = Dbl.fin 10000000000000000 := by
    have h := round64_base_even 0 (by norm_num)
    rw [show (10000000000000000 : ℚ) + 2 * ((0 : ℕ) : ℚ) = 10000000000000000 by norm_num]
      at h
    exact h
  have h0 : kahan_step round64 (Dbl.fin 0, Dbl.fin 0) (Dbl.fin 10000000000000000)
      = (Dbl.fin (10000000000000000 + 4 * ((0 : ℕ) : ℚ)), Dbl.fin 0) := by
    rw [show (10000000000000000 : ℚ) + 4 * ((0 : ℕ) : ℚ) = 10000000000000000 by norm_num]
    apply kahan_step_round round64 _ _ _ 10000000000000000 _ 10000000000000000
    · rw [sub_zero]; exact hB
    · rw [zero_add]; exact hB
    · rw [sub_zero]; exact hB
    · rw [sub_self]; exact round64_zero
  have hk : kahan_sum round64 kahan_test = Dbl.fin 10000000000010000 := by
    have hf := kahan_fold_ones 2500 0 (by norm_num)
    rw [show (4 * 2500 : ℕ) = 10000 from rfl] at hf
    rw [kahan_sum, kahan_loop, kahan_test, List.foldl_cons, h0, hf]
    norm_num
  have hn : naive_sum round64 kahan_test = Dbl.fin 10000000000000000 := by
    rw [naive_sum, kahan_test, List.foldl_cons, radd_fin, zero_add, hB]
    exact naive_fold_ones 10000
  refine ⟨_, _, hk, hn, rfl, rfl, ?_, ?_⟩ <;> norm_num

end numerical

/-! ## Double arithmetic: evaluation of the rounding -/

namespace numerical

variable {K : Type} [LinearOrderedField K] [FloorRing K]

/-- A value closer than one half to the integer `m` rounds to `m`. -/
theorem roundHalfEven_of_lt (x : K) (m : ℤ) (h1 : (m : K) - 1 / 2 < x)
    (h2 : x < (m : K) + 1 / 2) : roundHalfEven x = m := by
  by_cases hx : (m : K) ≤ x
  · have hf : ⌊x⌋ = m := by
      rw [Int.floor_eq_iff]
      exact ⟨hx, by linarith⟩
    simp only [roundHalfEven, hf]
    rw [if_pos (by linarith)]
  · have hf : ⌊x⌋ = m - 1 := by
      rw [Int.floor_eq_iff]
      push_cast
      constructor <;> linarith
    simp only [roundHalfEven, hf]
    push_cast
    rw [if_neg (by linarith), if_pos (by linarith)]
    ring

/-- A value from an even integer `m` up to `m + 1 / 2` rounds to `m`. -/
theorem roundHalfEven_of_le_half (x : K) (m : ℤ) (h1 : (m : K) ≤ x)
    (h2 : x ≤ (m : K) + 1 / 2) (he : m % 2 = 0) : roundHalfEven x = m := by
  have hf : ⌊x⌋ = m := by
    rw [Int.floor_eq_iff]
    exact ⟨h1, by linarith⟩
  simp only [roundHalfEven, hf]
  by_cases h : x - (m : K) < 1 / 2
  · rw [if_pos h]
  · rw [if_neg h, if_neg (by linarith), if_pos he]

/-- Rounding to the nearest integer stays between two integers that enclose the
value. -/
theorem roundHalfEven_bounds (x : K) (a b : ℤ) (ha : (a : K) ≤ x) (hb : x ≤ (b : K)) :
    a ≤ roundHalfEven x ∧ roundHalfEven x ≤ b := by
  have hfa : a ≤ ⌊x⌋ := Int.le_floor.mpr ha
  have hfx : ((⌊x⌋ : ℤ) : K) ≤ x := Int.floor_le x
  have hfb : ⌊x⌋ ≤ b := by
    have : ((⌊x⌋ : ℤ) : K) ≤ (b : K) := le_trans hfx hb
    exact_mod_cast this
  have hup : 0 < x - ((⌊x⌋ : ℤ) : K) → ⌊x⌋ + 1 ≤ b := by
    intro hpos
    have : ((⌊x⌋ : ℤ) : K) < (b : K) := by linarith
    have : ⌊x⌋ < b := by exact_mod_cast this
    omega
  simp only [roundHalfEven]
  split
  · exact ⟨hfa, hfb⟩
  · rename_i h1
    split
    · rename_i h2
      exact ⟨by omega, hup (by linarith)⟩
    · split
      · exact ⟨hfa, hfb⟩
      · exact ⟨by omega, hup (by linarith)⟩

/-- The rounding of a value `q` in the binade of exponent `52 + j`: the significand
is `q / 2 ^ j` rounded to an integer. -/
theorem round64_eval (q : K) (j m : ℤ) (h1 : (2 : K) ^ (52 + j) ≤ |q|)
    (h2 : |q| < (2 : K) ^ (53 + j)) (hj1 : -1074 ≤ j) (hj2 : j ≤ 970)
    (hm : roundHalfEven (q / (2 : K) ^ j) = m) :
    round64 q = Dbl.fin ((m : K) * (2 : K) ^ j) := by
  have hpow : (0 : K) < (2 : K) ^ j := zpow_pos (by norm_num) j
  have hq0 : q ≠ 0 := by
    intro h
    rw [h, abs_zero] at h1
    have : (0 : K) < (2 : K) ^ (52 + j) := zpow_pos (by norm_num) _
    linarith
  have hlog : Int.log 2 |q| = 52 + j :=
    int_log_two_eq h1 (by rw [show 52 + j + 1 = 53 + j by ring]; exact h2)
  have he : max (52 + j) (-1022) - 52 = j := by
    rw [max_eq_left (by omega)]
    ring
  have hx : |q / (2 : K) ^ j| < (2 : K) ^ (53 : ℤ) := by
    rw [abs_div, abs_of_pos hpow, div_lt_iff₀ hpow, ← zpow_add₀ (by norm_num : (2 : K) ≠ 0)]
    exact h2
  have hmb : -(2 ^ 53 : ℤ) ≤ m ∧ m ≤ (2 ^ 53 : ℤ) := by
    rw [← hm]
    apply roundHalfEven_bounds
    · have := (abs_lt.mp hx).1
      push_cast
      norm_num at this ⊢
      linarith
    · have := (abs_lt.mp hx).2
      push_cast
      norm_num at this ⊢
      linarith
  have hmabs : |(m : K)| ≤ (2 : K) ^ (53 : ℤ) := by
    rw [abs_le]
    have a1 : ((-(2 ^ 53 : ℤ) : ℤ) : K) ≤ (m : K) := by exact_mod_cast hmb.1
    have a2 : (m : K) ≤ ((2 ^ 53 : ℤ) : K) := by exact_mod_cast hmb.2
    push_cast at a1 a2
    norm_num at a1 a2 ⊢
    exact ⟨a1, a2⟩
  have hbig : ¬ (2 ^ 53 - 1) * (2 : K) ^ (971 : ℤ) < |(m : K) * (2 : K) ^ j| := by
    rw [not_lt, abs_mul, abs_of_pos hpow]
    have h2j : (2 : K) ^ j ≤ (2 : K) ^ (970 : ℤ) := zpow_le_zpow_right₀ (by norm_num) hj2
    calc |(m : K)| * (2 : K) ^ j ≤ (2 : K) ^ (53 : ℤ) * (2 : K) ^ (970 : ℤ) :=
          mul_le_mul hmabs h2j hpow.le (by positivity)
      _ ≤ (2 ^ 53 - 1) * (2 : K) ^ (971 : ℤ) := by
          rw [show (971 : ℤ) = 970 + 1 by norm_num, zpow_add₀ (by norm_num : (2 : K) ≠ 0)]
          have hp : (0 : K) < (2 : K) ^ (970 : ℤ) := zpow_pos (by norm_num) _
          have : (2 : K) ^ (53 : ℤ) ≤ (2 ^ 53 - 1) * (2 : K) ^ (1 : ℤ) := by norm_num
          calc (2 : K) ^ (53 : ℤ) * (2 : K) ^ (970 : ℤ)
              ≤ ((2 ^ 53 - 1) * (2 : K) ^ (1 : ℤ)) * (2 : K) ^ (970 : ℤ) :=
                mul_le_mul_of_nonneg_right this hp.le
            _ = (2 ^ 53 - 1) * ((2 : K) ^ (970 : ℤ) * (2 : K) ^ (1 : ℤ)) := by ring
  simp only [round64, hq0, if_false, hlog, he, hm, hbig]

end numerical

namespace numerical

variable {K : Type} [LinearOrderedField K] [FloorRing K]

/-- A value within one half of an even integer `m` rounds to `m`. -/
theorem roundHalfEven_of_abs_le_half (x : K) (m : ℤ) (h1 : (m : K) - 1 / 2 ≤ x)
    (h2 : x ≤ (m : K) + 1 / 2) (he : m % 2 = 0) : roundHalfEven x = m := by
  by_cases hx : (m : K) ≤ x
  · exact roundHalfEven_of_le_half x m hx h2 he
  · have hf : ⌊x⌋ = m - 1 := by
      rw [Int.floor_eq_iff]
      push_cast
      constructor <;> linarith
    simp only [roundHalfEven, hf]
    push_cast
    rw [if_neg (by linarith)]
    by_cases h : (1 : K) / 2 < x - ((m : K) - 1)
    · rw [if_pos h]
      ring
    · rw [if_neg h, if_neg (by omega)]
      ring

/-- The rounding of a positive value `q` in the binade of exponent `52 + j`, when
`q / 2 ^ j` is closer than one half to the integer `m`. -/
theorem round64_eval_lt (q v : K) (j m : ℤ) (h1 : (2 : K) ^ (52 + j) ≤ q)
    (h2 : q < (2 : K) ^ (53 + j)) (hj1 : -1074 ≤ j) (hj2 : j ≤ 970)
    (hlo : (m : K) - 1 / 2 < q / (2 : K) ^ j) (hhi : q / (2 : K) ^ j < (m : K) + 1 / 2)
    (hv : (m : K) * (2 : K) ^ j = v) : round64 q = Dbl.fin v := by
  have hq : 0 < q := lt_of_lt_of_le (zpow_pos (by norm_num) _) h1
  rw [← hv]
  apply round64_eval q j m _ _ hj1 hj2 (roundHalfEven_of_lt _ m hlo hhi)
  · rw [abs_of_pos hq]; exact h1
  · rw [abs_of_pos hq]; exact h2

/-- The rounding of a positive value `q` in the binade of exponent `52 + j`, when
`q / 2 ^ j` is within one half of the even integer `m`. -/
theorem round64_eval_even (q v : K) (j m : ℤ) (h1 : (2 : K) ^ (52 + j) ≤ q)
    (h2 : q < (2 : K) ^ (53 + j)) (hj1 : -1074 ≤ j) (hj2 : j ≤ 970)
    (hlo : (m : K) - 1 / 2 ≤ q / (2 : K) ^ j) (hhi : q / (2 : K) ^ j ≤ (m : K) + 1 / 2)
    (he : m % 2 = 0) (hv : (m : K) * (2 : K) ^ j = v) : round64 q = Dbl.fin v := by
  have hq : 0 < q := lt_of_lt_of_le (zpow_pos (by norm_num) _) h1
  rw [← hv]
  apply round64_eval q j m _ _ hj1 hj2 (roundHalfEven_of_abs_le_half _ m hlo hhi he)
  · rw [abs_of_pos hq]; exact h1
  · rw [abs_of_pos hq]; exact h2

end numerical

/-! ## Double arithmetic: where rounding and overflow change the result -/

namespace numerical

end numerical

namespace stats

namespace WelfordAccumulator

open numerical

end WelfordAccumulator

end stats

namespace numerical

theorem radd_r_fin {K : Type} [LinearOrderedField K] (r : K → Dbl K) (a b : K) :
    Dbl.radd r (Dbl.fin a) (Dbl.fin b) = r (a + b) := rfl

theorem rsub_r_fin {K : Type} [LinearOrderedField K] (r : K → Dbl K) (a b : K) :
    Dbl.rsub r (Dbl.fin a) (Dbl.fin b) = r (a - b) := rfl

end numerical

namespace numerical

/-- One iteration of the summation loop of `log_sum_exp` on finite doubles, from the
roundings it performs. -/
theorem log_sum_exp_step_r_fin {K : Type} [LinearOrderedField K] (r : K → Dbl K)
    (exp : K → K) (m s x d e s2 : K) (hd : r (x - m) = Dbl.fin d)
    (he : r (exp d) = Dbl.fin e) (hs : r (s + e) = Dbl.fin s2) :
    log_sum_exp_step_r r exp (Dbl.fin m) (Dbl.fin s) (Dbl.fin x) = Dbl.fin s2 := by
  simp only [log_sum_exp_step_r, Dbl.rsub, hd, Dbl.rexp, he, Dbl.radd, hs]

end numerical

namespace numerical

section

variable {K : Type} [LinearOrderedField K] [FloorRing K]

/-- The rounding of a positive value in the binade of exponent `52 + j`, enclosed by
the doubles `a * 2 ^ j` and `b * 2 ^ j`, is a double `m * 2 ^ j` between them. -/
theorem round64_between (q : K) (j a b : ℤ) (h1 : (2 : K) ^ (52 + j) ≤ q)
    (h2 : q < (2 : K) ^ (53 + j)) (hj1 : -1074 ≤ j) (hj2 : j ≤ 970)
    (ha : (a : K) * (2 : K) ^ j ≤ q) (hb : q ≤ (b : K) * (2 : K) ^ j) :
    ∃ m : ℤ, round64 q = Dbl.fin ((m : K) * (2 : K) ^ j) ∧ a ≤ m ∧ m ≤ b := by
  have hq : 0 < q := lt_of_lt_of_le (zpow_pos (by norm_num) _) h1
  have hpow : (0 : K) < (2 : K) ^ j := zpow_pos (by norm_num) j
  have hbd := roundHalfEven_bounds (q / (2 : K) ^ j) a b
    ((le_div_iff₀ hpow).mpr ha) ((div_le_iff₀ hpow).mpr hb)
  refine ⟨roundHalfEven (q / (2 : K) ^ j), ?_, hbd.1, hbd.2⟩
  apply round64_eval q j _ _ _ hj1 hj2 rfl
  · rw [abs_of_pos hq]; exact h1
  · rw [abs_of_pos hq]; exact h2

/-- A positive double `m * 2 ^ j`, the significand `m` from `2 ^ 52` to `2 ^ 53`, rounds
to itself. -/
theorem round64_idem (m j : ℤ) (hm1 : 2 ^ 52 ≤ m) (hm2 : m ≤ 2 ^ 53) (hj1 : -1074 ≤ j)
    (hj2 : j ≤ 970) :
    round64 ((m : K) * (2 : K) ^ j) = Dbl.fin ((m : K) * (2 : K) ^ j) := by
  rcases lt_or_eq_of_le hm2 with h | h
  · exact round64_of_significand m j (by rw [abs_of_nonneg (by omega)]; exact hm1)
      (by rw [abs_of_nonneg (by omega)]; exact h) hj1 (by omega)
  · have e : (m : K) * (2 : K) ^ j = (((2 ^ 52 : ℤ)) : K) * (2 : K) ^ (j + 1) := by
      rw [h, zpow_add₀ (by norm_num : (2 : K) ≠ 0), zpow_one]
      push_cast
      ring
    rw [e]
    exact round64_of_significand (2 ^ 52) (j + 1) (by norm_num) (by norm_num) (by omega)
      (by omega)

end

end numerical

namespace numerical

/-- The value `exp (-37)` lies between the doubles `1.5 * 2 ^ (-54)` and `2 ^ (-53)`. -/
theorem exp_neg_37_bounds :
    (6755399441055744 : ℝ) * (2 : ℝ) ^ (-106 : ℤ) ≤ Real.exp (-37) ∧
      Real.exp (-37) < (2 : ℝ) ^ (-53 : ℤ) := by
  have hpow : Real.exp 37 = Real.exp 1 ^ 37 := by
    rw [← Real.exp_nat_mul]
    norm_num
  have hlo : (2.7182818283 : ℝ) ^ 37 ≤ Real.exp 37 := by
    rw [hpow]
    exact pow_le_pow_left₀ (by norm_num) Real.exp_one_gt_d9.le 37
  have hhi : Real.exp 37 ≤ (2.7182818286 : ℝ) ^ 37 := by
    rw [hpow]
    exact pow_le_pow_left₀ (Real.exp_pos 1).le Real.exp_one_lt_d9.le 37
  have hpos : 0 < Real.exp 37 := Real.exp_pos 37
  have h1 : (9007199254740993 : ℝ) ≤ Real.exp 37 :=
    le_trans (by norm_num) hlo
  have h2 : Real.exp 37 ≤ (12009599006321322 : ℝ) :=
    le_trans hhi (by norm_num)
  rw [Real.exp_neg]
  constructor
  · rw [le_inv_comm₀ (by positivity) hpos]
    refine le_trans h2 ?_
    norm_num
  · rw [inv_lt_comm₀ hpos (by positivity)]
    refine lt_of_lt_of_le ?_ h1
    norm_num

end numerical

namespace numerical

/-- In double arithmetic `log_sum_exp` depends on the order of finite elements: on
`0, -37, -37` the two small exponentials are absorbed one after the other and the
result is `0`, on `-37, -37, 0` they are added first and the result is positive. -/
theorem log_sum_exp_r_order :
    log_sum_exp_r round64 Real.exp Real.log [Dbl.fin 0, Dbl.fin (-37), Dbl.fin (-37)]
      = Dbl.fin 0 ∧
    ∃ l : ℝ, 0 < l ∧
      log_sum_exp_r round64 Real.exp Real.log [Dbl.fin (-37), Dbl.fin (-37), Dbl.fin 0]
        = Dbl.fin l := by
  obtain ⟨hE1, hE2⟩ := exp_neg_37_bounds
  have two : (2 : ℝ) ≠ 0 := by norm_num
  obtain ⟨m, hm, hm1, hm2⟩ := round64_between (Real.exp (-37)) (-106) 6755399441055744
    (2 ^ 53) (le_trans (by norm_num) hE1) (by norm_num at hE2 ⊢; exact hE2) (by norm_num)
    (by norm_num) (by exact_mod_cast hE1) (by push_cast; norm_num at hE2 ⊢; exact hE2.le)
  have hmr1 : (6755399441055744 : ℝ) ≤ (m : ℝ) := by exact_mod_cast hm1
  have hmr2 : (m : ℝ) ≤ 9007199254740992 := by exact_mod_cast hm2
  have hp106 : (2 : ℝ) ^ (-106 : ℤ) = 1 / 81129638414606681695789005144064 := by norm_num
  -- the roundings shared by the two orders
  have h00 : round64 ((0 : ℝ) - 0) = Dbl.fin 0 := by rw [sub_zero]; exact round64_zero
  have he0 : round64 (Real.exp 0) = Dbl.fin 1 := by rw [Real.exp_zero]; exact round64_one
  have h37 : round64 ((-37 : ℝ) - 0) = Dbl.fin (-37) := by
    have h := round64_of_significand (K := ℝ) (-5207287069147136) (-47) (by norm_num)
      (by norm_num) (by norm_num) (by norm_num)
    have e : (((-5207287069147136 : ℤ)) : ℝ) * (2 : ℝ) ^ (-47 : ℤ) = -37 - 0 := by norm_num
    rw [e] at h
    rw [h]
    norm_num
  have hidem : round64 ((0 : ℝ) + (m : ℝ) * (2 : ℝ) ^ (-106 : ℤ))
      = Dbl.fin ((m : ℝ) * (2 : ℝ) ^ (-106 : ℤ)) := by
    rw [zero_add]
    exact round64_idem m (-106) (by omega) hm2 (by norm_num) (by norm_num)
  have hdouble : round64 ((m : ℝ) * (2 : ℝ) ^ (-106 : ℤ) + (m : ℝ) * (2 : ℝ) ^ (-106 : ℤ))
      = Dbl.fin ((m : ℝ) * (2 : ℝ) ^ (-105 : ℤ)) := by
    have e : (m : ℝ) * (2 : ℝ) ^ (-106 : ℤ) + (m : ℝ) * (2 : ℝ) ^ (-106 : ℤ)
        = (m : ℝ) * (2 : ℝ) ^ (-105 : ℤ) := by
      rw [show (-105 : ℤ) = -106 + 1 by norm_num, zpow_add₀ two, zpow_one]
      ring
    rw [e]
    exact round64_idem m (-105) (by omega) hm2 (by norm_num) (by norm_num)
  have hp105 : (2 : ℝ) ^ (-105 : ℤ) = 1 / 40564819207303340847894502572032 := by norm_num
  have habsorb : ∀ s : ℝ, s = 1 →
      round64 (s + (m : ℝ) * (2 : ℝ) ^ (-106 : ℤ)) = Dbl.fin 1 := by
    intro s hs
    subst hs
    rw [hp106]
    apply round64_eval_even _ _ (-52) 4503599627370496
    · norm_num
      positivity
    · norm_num
      linarith
    · norm_num
    · norm_num
    · norm_num
      linarith
    · norm_num
      linarith
    · norm_num
    · norm_num
  have hround_up : round64 ((m : ℝ) * (2 : ℝ) ^ (-105 : ℤ) + 1)
      = Dbl.fin (4503599627370497 / 4503599627370496) := by
    rw [hp105]
    apply round64_eval_lt _ _ (-52) 4503599627370497
    · norm_num
      positivity
    · norm_num
      linarith
    · norm_num
    · norm_num
    · norm_num
      linarith
    · norm_num
      linarith
    · norm_num
  have hlog1 : round64 (Real.log 1) = Dbl.fin 0 := by rw [Real.log_one]; exact round64_zero
  have hw : (0 : ℝ) < 4503599627370497 / 4503599627370496 := by norm_num
  have hlw1 : (2 : ℝ) ^ (52 + (-105) : ℤ) ≤ Real.log (4503599627370497 / 4503599627370496) := by
    have := Real.one_sub_inv_le_log_of_pos hw
    refine le_trans ?_ this
    norm_num
  have hlw2 : Real.log (4503599627370497 / 4503599627370496) < (2 : ℝ) ^ (53 + (-105) : ℤ) := by
    have := Real.log_lt_sub_one_of_pos hw (by norm_num)
    refine lt_of_lt_of_le this ?_
    norm_num
  obtain ⟨n, hn, hn1, hn2⟩ := round64_between
    (Real.log (4503599627370497 / 4503599627370496)) (-105) (2 ^ 52) (2 ^ 53) hlw1 hlw2
    (by norm_num) (by norm_num)
    (by push_cast; norm_num at hlw1 ⊢; exact hlw1)
    (by push_cast; norm_num at hlw2 ⊢; exact hlw2.le)
  have hnidem : round64 ((0 : ℝ) + (n : ℝ) * (2 : ℝ) ^ (-105 : ℤ))
      = Dbl.fin ((n : ℝ) * (2 : ℝ) ^ (-105 : ℤ)) := by
    rw [zero_add]
    exact round64_idem n (-105) hn1 hn2 (by norm_num) (by norm_num)
  have hnpos : (0 : ℝ) < (n : ℝ) * (2 : ℝ) ^ (-105 : ℤ) := by
    have : (0 : ℝ) < (n : ℝ) := by
      have : (0 : ℤ) < n := by omega
      exact_mod_cast this
    positivity
  constructor
  · have hmax : max_element (Dbl.fin (0 : ℝ)) [Dbl.fin (-37), Dbl.fin (-37)] = Dbl.fin 0 := by
      norm_num [max_element, Dbl.lt]
    have s1 := log_sum_exp_step_r_fin round64 Real.exp 0 0 0 0 1 1 h00 he0
      (by rw [zero_add]; exact round64_one)
    have s2 := log_sum_exp_step_r_fin round64 Real.exp 0 1 (-37) (-37) _ 1 h37 hm
      (habsorb 1 rfl)
    rw [log_sum_exp_r]
    simp only [hmax, Dbl.isfinite, Bool.not_true, Bool.false_eq_true, if_false,
      List.foldl_cons, List.foldl_nil, s1, s2, Dbl.rlog, zero_lt_one, if_true, hlog1,
      radd_r_fin, add_zero, round64_zero]
  · refine ⟨(n : ℝ) * (2 : ℝ) ^ (-105 : ℤ), hnpos, ?_⟩
    have hmax : max_element (Dbl.fin (-37 : ℝ)) [Dbl.fin (-37), Dbl.fin 0] = Dbl.fin 0 := by
      norm_num [max_element, Dbl.lt]
    have s1 := log_sum_exp_step_r_fin round64 Real.exp 0 0 (-37) (-37) _ _ h37 hm hidem
    have s2 := log_sum_exp_step_r_fin round64 Real.exp 0 _ (-37) (-37) _ _ h37 hm hdouble
    have s3 := log_sum_exp_step_r_fin round64 Real.exp 0 _ 0 0 1 _ h00 he0 hround_up
    rw [log_sum_exp_r]
    simp only [hmax, Dbl.isfinite, Bool.not_true, Bool.false_eq_true, if_false,
      List.foldl_cons, List.foldl_nil, s1, s2, s3, Dbl.rlog, hw, if_true, hn, radd_r_fin,
      hnidem]

end numerical

namespace numerical

/-- C10, as stated, fails on the code.  With a NaN the scan for the maximum depends on
the order: `NaN, +∞` gives NaN and `+∞, NaN` gives `+∞`.  On finite values in double
arithmetic the summation depends on the order: `0, -37, -37` gives `0` and its
permutation `-37, -37, 0` gives a positive value. -/
theorem log_sum_exp_perm_counterexample :
    (List.Perm [(Dbl.nan : Dbl ℝ), Dbl.pinf] [Dbl.pinf, Dbl.nan] ∧
      log_sum_exp_r round64 Real.exp Real.log [Dbl.pinf, Dbl.nan]
        ≠ log_sum_exp_r round64 Real.exp Real.log [Dbl.nan, Dbl.pinf]) ∧
    (List.Perm [Dbl.fin (0 : ℝ), Dbl.fin (-37), Dbl.fin (-37)]
        [Dbl.fin (-37), Dbl.fin (-37), Dbl.fin 0] ∧
      log_sum_exp_r round64 Real.exp Real.log [Dbl.fin (-37), Dbl.fin (-37), Dbl.fin 0]
        ≠ log_sum_exp_r round64 Real.exp Real.log
            [Dbl.fin 0, Dbl.fin (-37), Dbl.fin (-37)]) := by
  refine ⟨⟨List.Perm.swap _ _ [], ?_⟩, ⟨?_, ?_⟩⟩
  · have h1 : log_sum_exp_r round64 Real.exp Real.log [(Dbl.pinf : Dbl ℝ), Dbl.nan]
        = Dbl.pinf := by
      simp [log_sum_exp_r, max_element, Dbl.lt, Dbl.isfinite]
    have h2 : log_sum_exp_r round64 Real.exp Real.log [(Dbl.nan : Dbl ℝ), Dbl.pinf]
        = Dbl.nan := by
      simp [log_sum_exp_r, max_element, Dbl.lt, Dbl.isfinite]
    rw [h1, h2]
    exact fun h => Dbl.noConfusion h
  · exact (List.Perm.swap (Dbl.fin (-37)) (Dbl.fin (0 : ℝ)) [Dbl.fin (-37)]).trans
      ((List.Perm.swap (Dbl.fin (-37)) (Dbl.fin (0 : ℝ)) []).cons (Dbl.fin (-37)))
  · obtain ⟨hA, l, hl, hB⟩ := log_sum_exp_r_order
    rw [hA, hB]
    intro h
    have : l = 0 := Dbl.fin.inj h
    linarith

/-! ## Exact arithmetic is the rounded code with the identity rounding -/

variable {K : Type}

theorem radd_fin_eq_add [LinearOrderedField K] (a b : Dbl K) :
    Dbl.radd Dbl.fin a b = Dbl.add a b := by
  cases a <;> cases b <;> rfl

theorem rsub_fin_eq_sub [LinearOrderedField K] (a b : Dbl K) :
    Dbl.rsub Dbl.fin a b = Dbl.sub a b := by
  cases a <;> cases b <;> rfl

theorem rmul_fin_eq_mul [LinearOrderedField K] (a b : Dbl K) :
    Dbl.rmul Dbl.fin a b = Dbl.mul a b := by
  cases a <;> cases b <;> rfl

theorem rdiv_fin_eq_div [LinearOrderedField K] (a b : Dbl K) :
    Dbl.rdiv Dbl.fin a b = Dbl.div a b := by
  cases a <;> cases b <;> simp only [Dbl.rdiv, Dbl.div]
  rename_i u v
  by_cases h : v = 0 <;> simp [h]

theorem rexp_fin_eq_exp [LinearOrderedField K] (e : K → K) (a : Dbl K) :
    Dbl.rexp Dbl.fin e a = Dbl.exp e a := by
  cases a <;> rfl

theorem rlog_fin_eq_log [LinearOrderedField K] (l : K → K) (a : Dbl K) :
    Dbl.rlog Dbl.fin l a = Dbl.log l a := by
  cases a <;> simp only [Dbl.rlog, Dbl.log]
  rename_i v
  by_cases h : 0 < v <;> simp [h]

/-- With the identity rounding `log_sum_exp_r` is `log_sum_exp`. -/
theorem log_sum_exp_r_fin_eq [LinearOrderedField K] (exp log : K → K) (x : List (Dbl K)) :
    log_sum_exp_r Dbl.fin exp log x = log_sum_exp exp log x := by
  have hstep : ∀ max_val : Dbl K, log_sum_exp_step_r Dbl.fin exp max_val
      = fun sum xi => Dbl.add sum (Dbl.exp exp (Dbl.sub xi max_val)) := by
    intro max_val
    funext sum xi
    rw [log_sum_exp_step_r, radd_fin_eq_add, rexp_fin_eq_exp, rsub_fin_eq_sub]
  cases x with
  | nil => rfl
  | cons x0 rest =>
    simp only [log_sum_exp_r, log_sum_exp, hstep, radd_fin_eq_add, rlog_fin_eq_log]

/-- With the identity rounding `softmax_inplace_r` is `softmax_inplace`. -/
theorem softmax_inplace_r_fin_eq [LinearOrderedField K] (exp : K → K) (x : List (Dbl K)) :
    softmax_inplace_r Dbl.fin exp x = softmax_inplace exp x := by
  have hstep : ∀ max_val : Dbl K, softmax_step_r Dbl.fin exp max_val
      = softmax_step exp max_val := by
    intro max_val
    funext p xi
    simp only [softmax_step_r, softmax_step, radd_fin_eq_add, rexp_fin_eq_exp,
      rsub_fin_eq_sub]
  cases x with
  | nil => rfl
  | cons x0 rest =>
    simp only [softmax_inplace_r, softmax_inplace, hstep, rdiv_fin_eq_div]

/-- With the identity rounding `approx_equal_r` is `approx_equal`. -/
theorem approx_equal_r_fin_eq [LinearOrderedField K] (a b rel_tol abs_tol : Dbl K) :
    approx_equal_r Dbl.fin a b rel_tol abs_tol = approx_equal a b rel_tol abs_tol := by
  simp only [approx_equal_r, approx_equal, rsub_fin_eq_sub, rmul_fin_eq_mul]

end numerical

namespace stats

namespace WelfordAccumulator

open numerical

/-- With the identity rounding, on finite values and a counter that is not negative,
`update_r` is `update`. -/
theorem update_r_fin_eq {K : Type} [LinearOrderedField K] (s : WelfordAccumulator K)
    (x : K) (hn : 0 ≤ s.n_) :
    update_r Dbl.fin { n_ := s.n_, mean_ := Dbl.fin s.mean_, m2_ := Dbl.fin s.m2_ }
        (Dbl.fin x)
      = (update s x).map
          (fun t => { n_ := t.n_, mean_ := Dbl.fin t.mean_, m2_ := Dbl.fin t.m2_ }) := by
  by_cases hlt : s.n_ < INT_MAX
  · have hc : (((s.n_ + 1 : ℤ)) : K) ≠ 0 := by
      have : (s.n_ + 1 : ℤ) ≠ 0 := by omega
      exact_mod_cast this
    rw [update_of_lt s x hlt]
    simp only [update_r, hlt, if_true, Dbl.rsub, Dbl.rdiv, hc, if_false, Dbl.radd, Dbl.rmul,
      Option.map_some']
  · rw [update_of_not_lt s x hlt]
    simp only [update_r, hlt, if_false, Option.map_none']

end WelfordAccumulator

end stats

/-! ## Permutations of sequences with infinities, in exact arithmetic -/

namespace numerical

/-- Without NaN and `+∞`, the scan of `std::max_element` ends on a finite element as
soon as the first element is finite or a finite element occurs later. -/
theorem max_element_finite {K : Type} [LinearOrder K] (rest : List (Dbl K)) :
    ∀ first : Dbl K, (first = Dbl.ninf ∨ ∃ v, first = Dbl.fin v) →
      (∀ d ∈ rest, d = Dbl.ninf ∨ ∃ v, d = Dbl.fin v) →
      ((∃ v, first = Dbl.fin v) ∨ ∃ v, Dbl.fin v ∈ rest) →
      ∃ M, max_element first rest = Dbl.fin M := by
  induction rest with
  | nil =>
    intro first _ _ h
    rcases h with ⟨v, hv⟩ | ⟨v, hv⟩
    · exact ⟨v, hv⟩
    · simp at hv
  | cons b t ih =>
    intro first hf hrest h
    have hb := hrest b (List.mem_cons_self b t)
    have ht : ∀ d ∈ t, d = Dbl.ninf ∨ ∃ v, d = Dbl.fin v :=
      fun d hd => hrest d (List.mem_cons_of_mem b hd)
    show ∃ M, max_element (if Dbl.lt first b then b else first) t = Dbl.fin M
    apply ih
    · split
      · exact hb
      · exact hf
    · exact ht
    · rcases h with ⟨v, hv⟩ | ⟨v, hv⟩
      · left
        subst hv
        rcases hb with hb | ⟨w, hw⟩
        · subst hb
          exact ⟨v, by simp [Dbl.lt]⟩
        · subst hw
          by_cases hlt : v < w
          · exact ⟨w, by simp [Dbl.lt, hlt]⟩
          · exact ⟨v, by simp [Dbl.lt, hlt]⟩
      · rcases List.mem_cons.mp hv with hv | hv
        · left
          subst hv
          rcases hf with hf | ⟨w, hw⟩
          · subst hf
            exact ⟨v, by simp [Dbl.lt]⟩
          · subst hw
            by_cases hlt : w < v
            · exact ⟨v, by simp [Dbl.lt, hlt]⟩
            · exact ⟨w, by simp [Dbl.lt, hlt]⟩
        · right
          exact ⟨v, hv⟩

/-- On finite elements and `-∞` the summation loop of `log_sum_exp` computes the plain
sum of the shifted terms, the elements `-∞` adding 0. -/
theorem sum_loop_terms (M : ℝ) (l : List (Dbl ℝ))
    (hl : ∀ d ∈ l, d = Dbl.ninf ∨ ∃ v, d = Dbl.fin v) :
    ∀ acc : ℝ,
      l.foldl (fun sum xi => Dbl.add sum (Dbl.exp Real.exp (Dbl.sub xi (Dbl.fin M))))
          (Dbl.fin acc)
        = Dbl.fin (acc + (l.map (exp_term Real.exp)).sum * Real.exp (-M)) := by
  induction l with
  | nil => intro acc; simp
  | cons b t ih =>
    intro acc
    have ht : ∀ d ∈ t, d = Dbl.ninf ∨ ∃ v, d = Dbl.fin v :=
      fun d hd => hl d (List.mem_cons_of_mem b hd)
    rcases hl b (List.mem_cons_self b t) with hb | ⟨v, hv⟩
    · subst hb
      have hstep : Dbl.add (Dbl.fin acc) (Dbl.exp Real.exp (Dbl.sub Dbl.ninf (Dbl.fin M)))
          = Dbl.fin (acc + 0) := rfl
      rw [List.foldl_cons, hstep, ih ht]
      simp [exp_term]
    · subst hv
      have hstep : Dbl.add (Dbl.fin acc) (Dbl.exp Real.exp (Dbl.sub (Dbl.fin v) (Dbl.fin M)))
          = Dbl.fin (acc + Real.exp (v - M)) := rfl
      rw [List.foldl_cons, hstep, ih ht]
      simp only [List.map_cons, List.sum_cons, exp_term]
      congr 1
      rw [sub_eq_add_neg, Real.exp_add]
      ring

theorem sum_exp_term_nonneg (l : List (Dbl ℝ)) : 0 ≤ (l.map (exp_term Real.exp)).sum := by
  induction l with
  | nil => simp
  | cons b t ih =>
    simp only [List.map_cons, List.sum_cons]
    have : 0 ≤ exp_term Real.exp b := by
      cases b <;> simp [exp_term, (Real.exp_pos _).le]
    linarith

theorem sum_exp_term_pos (l : List (Dbl ℝ)) (v : ℝ) (h : Dbl.fin v ∈ l) :
    0 < (l.map (exp_term Real.exp)).sum := by
  obtain ⟨l1, l2, rfl⟩ := List.append_of_mem h
  simp only [List.map_append, List.map_cons, List.sum_append, List.sum_cons, exp_term]
  have h1 := sum_exp_term_nonneg l1
  have h2 := sum_exp_term_nonneg l2
  have := Real.exp_pos v
  linarith

/-- Without NaN and `+∞`, and with a finite element, `log_sum_exp` returns the
logarithm of the sum of the exponentials of the finite elements. -/
theorem log_sum_exp_terms (x : List (Dbl ℝ))
    (hx : ∀ d ∈ x, d = Dbl.ninf ∨ ∃ v, d = Dbl.fin v) (v : ℝ) (hv : Dbl.fin v ∈ x) :
    log_sum_exp Real.exp Real.log x
      = Dbl.fin (Real.log (x.map (exp_term Real.exp)).sum) := by
  cases x with
  | nil => simp at hv
  | cons x0 rest =>
    have hpos := sum_exp_term_pos (x0 :: rest) v hv
    obtain ⟨M, hM⟩ := max_element_finite rest x0 (hx x0 (List.mem_cons_self _ _))
      (fun d hd => hx d (List.mem_cons_of_mem _ hd))
      (by
        rcases List.mem_cons.mp hv with h | h
        · exact Or.inl ⟨v, h.symm⟩
        · exact Or.inr ⟨v, h⟩)
    have hS : 0 < ((x0 :: rest).map (exp_term Real.exp)).sum * Real.exp (-M) :=
      mul_pos hpos (Real.exp_pos _)
    have hloop := sum_loop_terms M (x0 :: rest) hx 0
    simp only [log_sum_exp, hM, Dbl.isfinite, Bool.not_true, Bool.false_eq_true, if_false]
    rw [hloop, zero_add]
    simp only [Dbl.log, hS, if_true, Dbl.add]
    rw [Real.log_mul (ne_of_gt hpos) (ne_of_gt (Real.exp_pos _)), Real.log_exp]
    congr 1
    ring

/-- An element that is neither NaN nor `+∞` is `-∞` or finite. -/
theorem ninf_or_fin {K : Type} (d : Dbl K) (h1 : d ≠ Dbl.nan) (h2 : d ≠ Dbl.pinf) :
    d = Dbl.ninf ∨ ∃ v, d = Dbl.fin v := by
  cases d with
  | fin v => exact Or.inr ⟨v, rfl⟩
  | pinf => exact absurd rfl h2
  | ninf => exact Or.inl rfl
  | nan => exact absurd rfl h1

/-- C10 (amended): in exact real arithmetic, for every sequence without NaN (finite
values and infinities) and every permutation of it, `log_sum_exp` returns the same
value on both. -/
theorem log_sum_exp_perm_of_no_nan (x y : List (Dbl ℝ)) (h : x.Perm y)
    (hnan : ∀ d ∈ x, d ≠ Dbl.nan) :
    log_sum_exp Real.exp Real.log y = log_sum_exp Real.exp Real.log x := by
  have hnany : ∀ d ∈ y, d ≠ Dbl.nan := fun d hd => hnan d (h.mem_iff.mpr hd)
  by_cases hx : x = []
  · subst hx
    rw [List.Perm.nil_eq h]
  have hy : y ≠ [] := by
    intro hy
    subst hy
    exact hx (List.Perm.eq_nil h)
  by_cases hp : Dbl.pinf ∈ x
  · rw [(log_sum_exp_of_inf Real.exp Real.log x hx hnan).1 hp,
      (log_sum_exp_of_inf Real.exp Real.log y hy hnany).1 (h.mem_iff.mp hp)]
  by_cases hall : ∀ d ∈ x, d = Dbl.ninf
  · rw [(log_sum_exp_of_inf Real.exp Real.log x hx hnan).2 hall,
      (log_sum_exp_of_inf Real.exp Real.log y hy hnany).2
        (fun d hd => hall d (h.mem_iff.mpr hd))]
  have hxc : ∀ d ∈ x, d = Dbl.ninf ∨ ∃ v, d = Dbl.fin v := fun d hd =>
    ninf_or_fin d (hnan d hd) (fun e => hp (e ▸ hd))
  have hyc : ∀ d ∈ y, d = Dbl.ninf ∨ ∃ v, d = Dbl.fin v := fun d hd =>
    hxc d (h.mem_iff.mpr hd)
  obtain ⟨v, hv⟩ : ∃ v, Dbl.fin v ∈ x := by
    by_contra hno
    apply hall
    intro d hd
    rcases hxc d hd with h1 | ⟨v, h1⟩
    · exact h1
    · exact absurd ⟨v, h1 ▸ hd⟩ hno
  rw [log_sum_exp_terms x hxc v hv, log_sum_exp_terms y hyc v (h.mem_iff.mp hv),
    List.Perm.sum_eq (List.Perm.map _ h)]

/-- The sequence `1, -∞, +∞, 2` and a permutation of it, and the sequence `1, -∞, 2`
and a permutation of it. -/
theorem log_sum_exp_perm_of_no_nan_witness :
    log_sum_exp Real.exp Real.log [Dbl.ninf, Dbl.fin 1, Dbl.pinf, Dbl.fin 2]
        = log_sum_exp Real.exp Real.log [Dbl.fin 1, Dbl.ninf, Dbl.pinf, Dbl.fin 2] ∧
      log_sum_exp Real.exp Real.log [Dbl.ninf, Dbl.fin 1, Dbl.fin 2]
        = log_sum_exp Real.exp Real.log [Dbl.fin 1, Dbl.ninf, Dbl.fin 2] :=
  ⟨log_sum_exp_perm_of_no_nan _ _ (List.Perm.swap _ _ _) (by simp),
    log_sum_exp_perm_of_no_nan _ _ (List.Perm.swap _ _ _) (by simp)⟩

end numerical
